import Mathlib

/-!
# Verification of the destructive-git-guard command classifier

Shallow embedding of `base/hooks/destructive-command-guard.py`: the shell
decomposer (`split_shell_commands` and its helpers) and the destructive-
operation classifier (`check_command` and the individual rule checks).

Strings are modelled as `List Char` (`Str`).  Each Python function is
translated into a total executable Lean function of the same name (modulo
Lean identifier rules).  The only effectful collaborator,
`get_current_branch` (a subprocess call), is modelled as an explicit
`Option Str` parameter threaded to the checks that consult it; `none`
models every failure mode (timeout, missing binary, non-zero exit), which
the Python code collapses to `None`.

Regular-expression operations from the source are realised as explicit
character scanners; each carries a comment naming the regex it implements.
Functions whose Python loop is not structurally recursive are defined with
an explicit fuel argument (always sufficient: every step consumes at least
one character, so `length + 1` steps never exhaust), keeping every
definition kernel-computable.
-/

namespace Guard

/-- Command text, as the Python code's `str`. -/
abbrev Str := List Char

/-- Backtick character (0x60). -/
def btk : Char := Char.ofNat 96

/-- Single-quote character (0x27). -/
def squo : Char := Char.ofNat 39

/-- Left brace character (0x7b). -/
def lbr : Char := Char.ofNat 123

/-- Right brace character (0x7d). -/
def rbr : Char := Char.ofNat 125

/-- Backslash character. -/
def bsl : Char := '\\'

/-- Whitespace for `shlex` (`shlex.whitespace = " \t\r\n"`). -/
def isShWs (c : Char) : Bool := c = ' ' || c = '\t' || c = '\r' || c = '\n'

/-- ASCII whitespace for Python `str.split()` / `str.strip()` and the regex
class `\s` (all inputs here are ASCII, where the three notions agree). -/
def isPyWs (c : Char) : Bool :=
  c = ' ' || c = '\t' || c = '\n' || c = '\r' || c = '\x0b' || c = '\x0c'

/-- Does the token start with a dash (Python `startswith("-")`)? -/
def startsDash : Str → Bool
  | '-' :: _ => true
  | _ => false

/-- `s.strip()`: drop ASCII whitespace from both ends. -/
def stripWs (s : Str) : Str := List.rdropWhile isPyWs (List.dropWhile isPyWs s)

/-- `s.lstrip()`. -/
def lstripWs (s : Str) : Str := List.dropWhile isPyWs s

/-- `s.rstrip()`. -/
def rstripWs (s : Str) : Str := List.rdropWhile isPyWs s

/-- `s.lstrip("+")`: drop every leading `+`. -/
def lstripPlus (s : Str) : Str := List.dropWhile (fun c => c = '+') s

/-! ## `_shell_split`: `shlex.split` with a `str.split()` fallback -/

/-- Body of a single-quoted span (POSIX `shlex`): everything literal up to
the closing quote; `none` models the `ValueError` for an unclosed quote. -/
def singleQ : Str → Option (Str × Str)
  | [] => none
  | c :: r =>
    if c = squo then some ([], r)
    else (singleQ r).map (fun x => (c :: x.1, x.2))

/-- Body of a double-quoted span (POSIX `shlex`): backslash escapes only
`"` and `\`; otherwise the backslash is kept; `none` models `ValueError`. -/
def doubleQ : Str → Option (Str × Str)
  | [] => none
  | c :: r =>
    if c = '"' then some ([], r)
    else if c = bsl then
      match r with
      | [] => none
      | x :: r2 =>
        if x = '"' || x = bsl then (doubleQ r2).map (fun y => (x :: y.1, y.2))
        else (doubleQ r2).map (fun y => (bsl :: x :: y.1, y.2))
    else (doubleQ r).map (fun y => (c :: y.1, y.2))

/-- Main `shlex` state machine (`posix=True`, `whitespace_split=True`).
`acc` is the current token, reversed; `none` for the token means no token
has started (POSIX `shlex` emits empty tokens only for quoted spans).
Each step consumes at least one input character, so fuel `length + 1`
is never exhausted. -/
def shlexAuxF : Nat → Option Str → Str → Option (List Str)
  | 0, _, _ => none
  | _ + 1, acc, [] =>
    some (match acc with | none => [] | some a => [a.reverse])
  | f + 1, acc, c :: r =>
    if isShWs c then
      match acc with
      | none => shlexAuxF f none r
      | some a => (shlexAuxF f none r).map (fun ts => a.reverse :: ts)
    else if c = squo then
      match singleQ r with
      | none => none
      | some (chunk, rest) => shlexAuxF f (some (chunk.reverse ++ acc.getD [])) rest
    else if c = '"' then
      match doubleQ r with
      | none => none
      | some (chunk, rest) => shlexAuxF f (some (chunk.reverse ++ acc.getD [])) rest
    else if c = bsl then
      match r with
      | [] => none
      | x :: r2 => shlexAuxF f (some (x :: acc.getD [])) r2
    else shlexAuxF f (some (c :: acc.getD [])) r

/-- `shlex.split(cmd)`; `none` models a raised `ValueError`. -/
def shlexSplit (s : Str) : Option (List Str) := shlexAuxF (s.length + 1) none s

/-- Python `str.split()`: split on runs of whitespace, dropping empties. -/
def pySplitF : Nat → Str → List Str
  | 0, _ => []
  | _ + 1, [] => []
  | f + 1, c :: r =>
    if isPyWs c then pySplitF f r
    else (c :: r.takeWhile (fun d => !isPyWs d)) ::
      pySplitF f (r.dropWhile (fun d => !isPyWs d))

/-- Python `str.split()`. -/
def pySplit (s : Str) : List Str := pySplitF (s.length + 1) s

/-- `_shell_split`: `shlex.split`, falling back to `cmd.split()` when
`shlex` raises `ValueError`. -/
def shell_split (cmd : Str) : List Str :=
  match shlexSplit cmd with
  | some ts => ts
  | none => pySplit cmd

/-! ## Catalogs -/

/-- `PROTECTED_BRANCHES`. -/
def PROTECTED_BRANCHES : List Str := [("main").data, ("master").data]

/-- `GIT_GLOBAL_OPTS_WITH_VALUE`. -/
def GIT_GLOBAL_OPTS_WITH_VALUE : List Str :=
  [("-C").data, ("-c").data, ("--config-env").data, ("--exec-path").data,
   ("--git-dir").data, ("--namespace").data, ("--super-prefix").data,
   ("--work-tree").data]

/-- `GIT_GLOBAL_FLAGS`. -/
def GIT_GLOBAL_FLAGS : List Str :=
  [("--bare").data, ("--literal-pathspecs").data, ("--glob-pathspecs").data,
   ("--noglob-pathspecs").data, ("--icase-pathspecs").data,
   ("--no-pager").data, ("--paginate").data, ("--no-optional-locks").data]

/-- `PUSH_ALL_FLAGS`. -/
def PUSH_ALL_FLAGS : List Str := [("--all").data, ("--mirror").data]

/-- One single-quote character, for building the reason strings. -/
def sq : Str := [squo]

/-- Reason for `git reset --hard`. -/
def reasonResetHard : Str :=
  ("Destroys all uncommitted work. Use ").data ++ sq ++ ("git stash").data ++
    sq ++ (" first.").data

/-- Reason for `git stash drop`. -/
def reasonStashDrop : Str := ("Permanently deletes stashed changes.").data

/-- Reason for `git stash clear`. -/
def reasonStashClear : Str := ("Permanently deletes ALL stashed changes.").data

/-- Reason for `gh pr merge`. -/
def reasonPrMerge : Str := ("Merges PR. Run manually to review.").data

/-- Reason for `gh repo delete`. -/
def reasonRepoDelete : Str := ("Permanently deletes repository.").data

/-- `DESTRUCTIVE_GIT`: destructive substrings with their reasons. -/
def DESTRUCTIVE_GIT : List (Str × Str) :=
  [(("git reset --hard").data, reasonResetHard),
   (("git stash drop").data, reasonStashDrop),
   (("git stash clear").data, reasonStashClear),
   (("gh pr merge").data, reasonPrMerge),
   (("gh repo delete").data, reasonRepoDelete)]

/-- Reason for `--no-verify`. -/
def reasonNoVerify : Str :=
  ("Skips git hooks. Hooks enforce quality gates — don").data ++ sq ++
    ("t bypass them.").data

/-- `DANGEROUS_FLAGS`. -/
def DANGEROUS_FLAGS : List (Str × Str) :=
  [(("--no-verify").data, reasonNoVerify)]

/-! ## Push-argument parsing -/

/-- Scanning loop of `_push_args`, starting just after the leading `git`
token: skip recognized global options (value-taking ones consume the next
token; `opt=value` forms and bare flags consume one), skip any other
dash-prefixed token, stop with the remaining tokens at `push`, and abandon
(`[]`) at `--`, at any other non-dash token, at a value-taking option
missing its value, or at end of input. -/
def push_args_loop : List Str → List Str
  | [] => []
  | t :: rest =>
    if t = ("--").data then []
    else if t = ("push").data then rest
    else if t ∈ GIT_GLOBAL_OPTS_WITH_VALUE then
      match rest with
      | [] => []
      | _ :: rest2 => push_args_loop rest2
    else if GIT_GLOBAL_OPTS_WITH_VALUE.any (fun o => (o ++ ['=']).isPrefixOf t) then
      push_args_loop rest
    else if t ∈ GIT_GLOBAL_FLAGS then push_args_loop rest
    else if startsDash t then push_args_loop rest
    else []

/-- `_push_args`: the tokens after `git ... push`, or `[]` when the command
is not recognized as a push. -/
def push_args (cmd : Str) : List Str :=
  match shell_split cmd with
  | t0 :: rest => if t0 = ("git").data then push_args_loop rest else []
  | [] => []

/-- The literal `refs/heads/`. -/
def refsHeads : Str := ("refs/heads/").data

/-- `_normalize_branch_ref`: `ref.removeprefix("refs/heads/")`. -/
def normalize_branch_ref (s : Str) : Str :=
  if refsHeads.isPrefixOf s then s.drop refsHeads.length else s

/-- `_extract_push_targets`: drop option tokens; the first remaining token
is the remote unless it looks like a ref or refspec. -/
def extract_push_targets (args : List Str) : List Str :=
  let nonOption := args.filter (fun a => !a.isEmpty && !startsDash a)
  match nonOption with
  | [] => []
  | first :: targets =>
    if (':' ∈ first) || startsDash? first || refsHeads.isPrefixOf first ||
        decide (normalize_branch_ref first ∈ PROTECTED_BRANCHES) then
      first :: targets
    else targets
where
  /-- `first.startswith("+")`. -/
  startsDash? : Str → Bool
    | '+' :: _ => true
    | _ => false

/-! ## Rule checks -/

/-- Reason for `--all` / `--mirror` pushes (`check_push_protection`). -/
def pushAllReason (flag : Str) : Str :=
  flag ++ (" can update protected branches. Use PR workflow:\n  git push origin <feature-branch>\n  gh pr create").data

/-- Refspec block reason. -/
def refspecReason (branch : Str) : Str :=
  ("Refspec targeting ").data ++ branch ++ (" blocked. Use PR workflow.").data

/-- Direct-push block reason. -/
def directPushReason (branch : Str) : Str :=
  ("Direct push to ").data ++ branch ++
    (" blocked. Use PR workflow:\n  git push origin <feature-branch>\n  gh pr create").data

/-- Bare-push-on-protected-branch reason. -/
def barePushReason (current : Str) : Str :=
  ("On ").data ++ current ++
    (". Direct push blocked.\nSwitch to feature branch:\n  git checkout -b <feature>\n  git push -u origin <feature>").data

/-- Text after the last `:` — Python `s.rsplit(":", 1)[1]` for a string
that contains a `:` (the caller guards on that). -/
def afterLastColon (s : Str) : Str :=
  (s.reverse.takeWhile (fun c => c ≠ ':')).reverse

/-- `is_protected_branch`: `None` and the empty string are not protected. -/
def is_protected_branch : Option Str → Bool
  | none => false
  | some b => !b.isEmpty && decide (b ∈ PROTECTED_BRANCHES)

/-- The `for target in targets` loop of `check_push_protection`: `some v`
when the loop returns the verdict `v`, `none` when it falls through. -/
def check_push_targets_loop : List Str → Option (Bool × Str)
  | [] => none
  | target :: rest =>
    let normalized := lstripPlus target
    if ':' ∈ normalized then
      let branch := normalize_branch_ref (afterLastColon normalized)
      if branch ∈ PROTECTED_BRANCHES then some (true, refspecReason branch)
      else check_push_targets_loop rest
    else
      let branch := normalize_branch_ref normalized
      if branch ∈ PROTECTED_BRANCHES then some (true, directPushReason branch)
      else check_push_targets_loop rest

/-- `check_push_protection`, with `get_current_branch()` supplied as the
`branch` parameter (`none` = lookup failed / no branch). -/
def check_push_protection (branch : Option Str) (cmd : Str) : Bool × Str :=
  let args := push_args cmd
  if args = [] then (false, [])
  else
    match args.find? (fun a => decide (a ∈ PUSH_ALL_FLAGS)) with
    | some flag => (true, pushAllReason flag)
    | none =>
      let targets := extract_push_targets args
      match check_push_targets_loop targets with
      | some v => v
      | none =>
        if is_protected_branch branch then
          if targets = [] then (true, barePushReason (branch.getD []))
          else (false, [])
        else (false, [])

/-- Word character for the regex `\b` boundary (`[A-Za-z0-9_]`; inputs are
ASCII). -/
def wordChar (c : Char) : Bool := c.isAlphanum || c = '_'

/-- `re.match(r"^git\s+<kw>\b", cmd)` for a keyword that starts with a
non-space and ends with a word character: `git`, one or more whitespace
characters, the keyword, then a non-word character or end of string. -/
def gitKwMatch (kw : Str) (cmd : Str) : Bool :=
  match cmd with
  | 'g' :: 'i' :: 't' :: c :: r =>
    isPyWs c &&
      (let rest := List.dropWhile isPyWs r
       kw.isPrefixOf rest &&
         (match rest.drop kw.length with
          | [] => true
          | d :: _ => !wordChar d))
  | _ => false

/-- Reason for `git rebase`. -/
def rebaseReason : Str :=
  ("git rebase rewrites history. Use ").data ++ sq ++ ("git merge main").data ++
    sq ++ (" instead.").data

/-- Reason for `git filter-branch`. -/
def filterBranchReason : Str :=
  ("git filter-branch rewrites history. Not allowed on sprites.").data

/-- `check_rebase_protection`. -/
def check_rebase_protection (cmd : Str) : Bool × Str :=
  if gitKwMatch (("rebase").data) cmd then (true, rebaseReason)
  else if gitKwMatch (("filter-branch").data) cmd then (true, filterBranchReason)
  else (false, [])

/-- Reason for a `+` force refspec. -/
def plusRefspecReason : Str :=
  ("Force refspec (+) overwrites remote history. Use ").data ++ sq ++
    ("--force-with-lease").data ++ sq ++ (" instead.").data

/-- Reason for `-f` / `--force`. -/
def forceReason : Str :=
  ("Overwrites remote history. Use ").data ++ sq ++
    ("--force-with-lease").data ++ sq ++ (" instead.").data

/-- An argument counted as a force flag: `--force`, `-f`, or a short-flag
bundle containing `f`. -/
def isForceFlag (a : Str) : Bool :=
  a = ("--force").data || a = ("-f").data ||
    (startsDash a && !(("--").data.isPrefixOf a) && decide ('f' ∈ a.drop 1))

/-- A safe-force argument: `--force-if-includes`, or anything starting with
`--force-with-lease`. -/
def isSafeForce (a : Str) : Bool :=
  a = ("--force-if-includes").data || ("--force-with-lease").data.isPrefixOf a

/-- `check_force_push_protection`. -/
def check_force_push_protection (cmd : Str) : Bool × Str :=
  let args := push_args cmd
  if args = [] then (false, [])
  else
    let targets := extract_push_targets args
    if targets.any (fun t => startsPlus t) then (true, plusRefspecReason)
    else if args.any isSafeForce then (false, [])
    else if args.any isForceFlag then (true, forceReason)
    else (false, [])
where
  /-- `t.startswith("+")`. -/
  startsPlus : Str → Bool
    | '+' :: _ => true
    | _ => false

/-- Reason for `git clean`. -/
def cleanReason : Str :=
  ("git clean deletes untracked files permanently. Use ").data ++ sq ++
    ("git clean -n").data ++ sq ++ (" to preview.").data

/-- The `for arg in tokens[2:]` loop of `check_clean_protection`: `true`
when a dry-run indicator allows the command, `false` when the loop breaks
at `--` or ends (in which case the command is blocked). -/
def clean_loop : List Str → Bool
  | [] => false
  | arg :: rest =>
    if arg = ("--").data then false
    else if arg = ("--dry-run").data then true
    else if startsDash arg && !(("--").data.isPrefixOf arg) && decide ('n' ∈ arg.drop 1) then true
    else clean_loop rest

/-- `check_clean_protection`. -/
def check_clean_protection (cmd : Str) : Bool × Str :=
  match shell_split cmd with
  | t0 :: t1 :: rest =>
    if t0 = ("git").data && t1 = ("clean").data then
      if clean_loop rest then (false, []) else (true, cleanReason)
    else (false, [])
  | _ => (false, [])

/-- Python `pattern in cmd`: substring test. -/
def isSubstr (p : Str) : Str → Bool
  | [] => p.isEmpty
  | c :: t => p.isPrefixOf (c :: t) || isSubstr p t

/-- The trailing-context test `(\s|$)` of the dangerous-flag regex. -/
def flagEndOk : Str → Bool
  | [] => true
  | c :: _ => isPyWs c

/-- The flag matches at this position with the right trailing context. -/
def flagHere (flag s : Str) : Bool := flag.isPrefixOf s && flagEndOk (s.drop flag.length)

/-- Scan for `\s<flag>(\s|$)` anywhere in `s`. -/
def flagSearchAux (flag : Str) : Str → Bool
  | [] => false
  | c :: r => (isPyWs c && flagHere flag r) || flagSearchAux flag r

/-- `re.search(r"(^|\s)" + flag + r"(\s|$)", cmd)`. -/
def flag_delimited (flag s : Str) : Bool := flagHere flag s || flagSearchAux flag s

/-- The last two stages of `check_single_command`: the destructive-substring
catalog, then the dangerous-flag catalog. -/
def genericChecks (cmd : Str) : Bool × Str :=
  match DESTRUCTIVE_GIT.find? (fun pr => isSubstr pr.1 cmd) with
  | some pr => (true, pr.2)
  | none =>
    match DANGEROUS_FLAGS.find? (fun pr => flag_delimited pr.1 cmd) with
    | some pr => (true, pr.2)
    | none => (false, [])

/-! ## Shell decomposer -/

/-- The `[^()]*\)` tail of the `\$\(([^()]*)\)` subshell regex, entered
just after `$(`: collect non-parenthesis characters up to a closing `)`;
fail on `(` or end of string. -/
def dollarCapture : Str → Option (Str × Str)
  | [] => none
  | c :: r =>
    if c = ')' then some ([], r)
    else if c = '(' then none
    else (dollarCapture r).map (fun x => (c :: x.1, x.2))

/-- Leftmost match of `\$\(([^()]*)\)`: returns the text before the match,
the captured group and the text after, scanning like `re` does (on a
failed attempt, continue from the next position). -/
def dollarFind : Str → Option (Str × Str × Str)
  | [] => none
  | '$' :: '(' :: r =>
    match dollarCapture r with
    | some (cap, rest) => some ([], cap, rest)
    | none => (dollarFind r).map (fun x => ('$' :: '(' :: x.1, x.2.1, x.2.2))
  | c :: r => (dollarFind r).map (fun x => (c :: x.1, x.2.1, x.2.2))

/-- The `[^\x60]*\x60` tail of the backtick-pair regex, entered just after
an opening backtick. -/
def backtickCapture : Str → Option (Str × Str)
  | [] => none
  | c :: r =>
    if c = btk then some ([], r)
    else (backtickCapture r).map (fun x => (c :: x.1, x.2))

/-- Leftmost backtick-pair match (regex: backtick, any non-backticks,
backtick).  When no closing backtick exists there is no later pair either,
so the scan reports no match. -/
def backtickFind : Str → Option (Str × Str × Str)
  | [] => none
  | c :: r =>
    if c = btk then
      match backtickCapture r with
      | some (cap, rest) => some ([], cap, rest)
      | none => none
    else (backtickFind r).map (fun x => (c :: x.1, x.2.1, x.2.2))

/-- `re.findall` for the `$( … )` pattern (captured groups, left to
right); fuel is one more than the length, and each match consumes at
least three characters. -/
def dollarFindAllF : Nat → Str → List Str
  | 0, _ => []
  | f + 1, s =>
    match dollarFind s with
    | none => []
    | some (_, cap, rest) => cap :: dollarFindAllF f rest

/-- `re.findall(r"\$\(([^()]*)\)", s)`. -/
def dollarFindAll (s : Str) : List Str := dollarFindAllF (s.length + 1) s

/-- `re.sub` for the `$( … )` pattern, replacing each match with one
space. -/
def dollarSubAllF : Nat → Str → Str
  | 0, s => s
  | f + 1, s =>
    match dollarFind s with
    | none => s
    | some (pre, _, rest) => pre ++ ' ' :: dollarSubAllF f rest

/-- `re.sub(r"\$\([^()]*\)", " ", s)`. -/
def dollarSubAll (s : Str) : Str := dollarSubAllF (s.length + 1) s

/-- `re.findall` for backtick pairs. -/
def backtickFindAllF : Nat → Str → List Str
  | 0, _ => []
  | f + 1, s =>
    match backtickFind s with
    | none => []
    | some (_, cap, rest) => cap :: backtickFindAllF f rest

/-- `re.findall` for the backtick-pair pattern. -/
def backtickFindAll (s : Str) : List Str := backtickFindAllF (s.length + 1) s

/-- `re.sub` for backtick pairs, replacing each with one space. -/
def backtickSubAllF : Nat → Str → Str
  | 0, s => s
  | f + 1, s =>
    match backtickFind s with
    | none => s
    | some (pre, _, rest) => pre ++ ' ' :: backtickSubAllF f rest

/-- `re.sub` for the backtick-pair pattern. -/
def backtickSubAll (s : Str) : Str := backtickSubAllF (s.length + 1) s

/-- One pass of substitution removal, as in the bodies of the two source
loops: dollar-subshells first, then backticks. -/
def subsOnce (s : Str) : Str := backtickSubAll (dollarSubAll s)

/-- `_extract_subshells`: repeatedly collect the contents of all `$( … )`
and backtick spans (dollar matches first, as `findall` is called on the
dollar pattern first), replacing each span by a space, until none remain.
Every round that finds a match shrinks the string, so fuel `length + 1`
is never exhausted. -/
def extract_subshellsF : Nat → Str → List Str
  | 0, _ => []
  | f + 1, s =>
    let inner := dollarFindAll s
    let bts := backtickFindAll s
    if inner = [] && bts = [] then []
    else (inner ++ bts) ++ extract_subshellsF f (subsOnce s)

/-- `_extract_subshells`. -/
def extract_subshells (s : Str) : List Str := extract_subshellsF (s.length + 1) s

/-- The flattening loop of `split_shell_commands`: replace substitution
spans by spaces until none remain. -/
def flattenSubsF : Nat → Str → Str
  | 0, s => s
  | f + 1, s =>
    if (dollarFind s).isSome || (backtickFind s).isSome then
      flattenSubsF f (subsOnce s)
    else s

/-- The flattened outer text of `split_shell_commands`. -/
def flattenSubs (s : Str) : Str := flattenSubsF (s.length + 1) s

/-- Raw split at the separator tokens `&&`, `||`, `;`, `|` (the token part
of `re.split(r"\s*(?:&&|\|\||[;|])\s*", s)`), keeping surrounding
whitespace; `acc` holds the current part, reversed.  A single `&` is an
ordinary character; at `|` the two-character `||` is preferred, matching
the regex alternation order. -/
def naiveAux : Str → Str → List Str
  | acc, [] => [acc.reverse]
  | acc, ';' :: r => acc.reverse :: naiveAux [] r
  | acc, '&' :: '&' :: r => acc.reverse :: naiveAux [] r
  | acc, '|' :: '|' :: r => acc.reverse :: naiveAux [] r
  | acc, '|' :: r => acc.reverse :: naiveAux [] r
  | acc, c :: r => naiveAux (c :: acc) r

/-- Raw separator split. -/
def naiveSplit (s : Str) : List Str := naiveAux [] s

/-- Parts after the first: each loses its leading whitespace (absorbed by
the preceding separator's trailing `\s*`) and, when another separator
follows, its trailing whitespace too. -/
def trimTail : List Str → List Str
  | [] => []
  | [p] => [lstripWs p]
  | p :: ps => stripWs p :: trimTail ps

/-- `re.split(r"\s*(?:&&|\|\||[;|])\s*", s)`: every separator-token match
absorbs the whitespace run on each side of it, so relative to the raw
split each non-last part loses its trailing whitespace and each non-first
part its leading whitespace. -/
def splitSeps (s : Str) : List Str :=
  match naiveSplit s with
  | [] => []
  | [p] => [p]
  | p :: ps => rstripWs p :: trimTail ps

/-- The `while cmd and cmd[0] in "({"` loop of `_strip_shell_grouping`
(and, reversed, the trailing loop): drop the delimiter, strip whitespace,
repeat.  Each step drops at least the delimiter character. -/
def sgLoopF (isDelim : Char → Bool) : Nat → Str → Str
  | 0, s => s
  | f + 1, s =>
    match s with
    | [] => []
    | c :: r =>
      if isDelim c then sgLoopF isDelim f (List.dropWhile isPyWs r)
      else c :: r

/-- Leading-delimiter test of `_strip_shell_grouping`: `(` or `{`. -/
def isOpenDelim (c : Char) : Bool := c = '(' || c = lbr

/-- Trailing-delimiter test of `_strip_shell_grouping`: `)`, `}` or `;`. -/
def isCloseDelim (c : Char) : Bool := c = ')' || c = rbr || c = ';'

/-- `_strip_shell_grouping`: `strip()`, then peel leading `(`/`{` (with
`lstrip` after each), then peel trailing `)`/`}`/`;` (with `rstrip` after
each, realised on the reversed string). -/
def strip_shell_grouping (s : Str) : Str :=
  let t := stripWs s
  let t2 := sgLoopF isOpenDelim (t.length + 1) t
  (sgLoopF isCloseDelim (t2.length + 1) t2.reverse).reverse

/-- `split_shell_commands`: extract subshell contents, flatten the outer
text, split outer and subshell texts at separators, strip grouping, and
drop blank or emptied fragments exactly as the list comprehensions do. -/
def split_shell_commands (cmd : Str) : List Str :=
  let subs := extract_subshells cmd
  let remaining := flattenSubs cmd
  let outer := ((splitSeps remaining).filter (fun p => !(stripWs p).isEmpty)).map
    strip_shell_grouping
  let allParts := outer ++ subs.flatMap (fun sub =>
    ((splitSeps sub).filter (fun p => !(stripWs p).isEmpty)).map strip_shell_grouping)
  allParts.filter (fun p => !p.isEmpty)

/-! ## Classifier -/

/-- `check_single_command`: the fixed rule pipeline on one decomposed
sub-command. -/
def check_single_command (branch : Option Str) (cmd : Str) : Bool × Str :=
  if cmd = [] then (false, [])
  else
    let v1 := check_push_protection branch cmd
    if v1.1 then v1
    else
      let v2 := check_rebase_protection cmd
      if v2.1 then v2
      else
        let v3 := check_force_push_protection cmd
        if v3.1 then v3
        else
          let v4 := check_clean_protection cmd
          if v4.1 then v4
          else genericChecks cmd

/-- The fragment loop of `check_command`: first blocking verdict wins. -/
def firstBlocked (branch : Option Str) : List Str → Bool × Str
  | [] => (false, [])
  | p :: ps =>
    let v := check_single_command branch p
    if v.1 then v else firstBlocked branch ps

/-- `check_command`: decompose, then classify each fragment, short-
circuiting at the first block. -/
def check_command (branch : Option Str) (cmd : Str) : Bool × Str :=
  if cmd = [] then (false, [])
  else firstBlocked branch (split_shell_commands cmd)

/-! ## Instrumented variants counting branch lookups

For the temporal claim about `get_current_branch`, the same functions with
an added counter of lookup invocations; the lookup site is the
`current = get_current_branch()` line of `check_push_protection`, reached
only after the target loop falls through. -/

/-- `check_push_protection` returning also how many times it invoked the
branch lookup. -/
def check_push_protectionC (branch : Option Str) (cmd : Str) : (Bool × Str) × Nat :=
  let args := push_args cmd
  if args = [] then ((false, []), 0)
  else
    match args.find? (fun a => decide (a ∈ PUSH_ALL_FLAGS)) with
    | some flag => ((true, pushAllReason flag), 0)
    | none =>
      let targets := extract_push_targets args
      match check_push_targets_loop targets with
      | some v => (v, 0)
      | none =>
        if is_protected_branch branch then
          if targets = [] then ((true, barePushReason (branch.getD [])), 1)
          else ((false, []), 1)
        else ((false, []), 1)

/-- `check_single_command` with the lookup counter (only the push rule can
invoke the lookup). -/
def check_single_commandC (branch : Option Str) (cmd : Str) : (Bool × Str) × Nat :=
  if cmd = [] then ((false, []), 0)
  else
    let p := check_push_protectionC branch cmd
    if p.1.1 then p
    else
      let v2 := check_rebase_protection cmd
      if v2.1 then (v2, p.2)
      else
        let v3 := check_force_push_protection cmd
        if v3.1 then (v3, p.2)
        else
          let v4 := check_clean_protection cmd
          if v4.1 then (v4, p.2)
          else (genericChecks cmd, p.2)

/-- The fragment loop with the lookup counter; later fragments are not
evaluated after a block (the Python `return`). -/
def firstBlockedC (branch : Option Str) : List Str → (Bool × Str) × Nat
  | [] => ((false, []), 0)
  | p :: ps =>
    let v := check_single_commandC branch p
    if v.1.1 then v
    else
      let w := firstBlockedC branch ps
      (w.1, v.2 + w.2)

/-- `check_command` with the lookup counter. -/
def check_commandC (branch : Option Str) (cmd : Str) : (Bool × Str) × Nat :=
  if cmd = [] then ((false, []), 0)
  else firstBlockedC branch (split_shell_commands cmd)

/-! ## Wrappers and joiners from the spec's composition properties -/

/-- Wrapping in a `$( … )` command substitution. -/
def dollarWrap (s : Str) : Str := '$' :: '(' :: (s ++ [')'])

/-- Wrapping in backticks. -/
def backtickWrap (s : Str) : Str := btk :: (s ++ [btk])

/-- Wrapping in one level of bare parentheses. -/
def parenWrap (s : Str) : Str := '(' :: (s ++ [')'])

/-- Wrapping in a brace group, `{ s ; }`. -/
def braceWrap (s : Str) : Str := lbr :: ' ' :: (s ++ (' ' :: ';' :: ' ' :: [rbr]))

/-- The four compound joiners. -/
def joiners : List Str := [('&' :: ['&']), ('|' :: ['|']), [';'], ['|']]

/-- Joining two commands with a joiner, with the usual single spaces. -/
def joinCmd (a : Str) (j : Str) (b : Str) : Str := a ++ ' ' :: (j ++ ' ' :: b)

/-- A command free of the characters whose pairing the decomposer's
substitution scan depends on: no parentheses and no backticks. -/
def cleanCmd (s : Str) : Prop := '(' ∉ s ∧ ')' ∉ s ∧ btk ∉ s

instance (s : Str) : Decidable (cleanCmd s) := by
  unfold cleanCmd; infer_instance

/-! ## Whitespace and grouping-strip algebra -/

theorem dropWhile_head_not {p : Char → Bool} {l r : Str} {c : Char}
    (h : List.dropWhile p l = c :: r) : p c = false := by
  induction l with
  | nil => simp at h
  | cons a l ih =>
    rw [List.dropWhile_cons] at h
    split at h
    · exact ih h
    · rename_i hpa
      cases h
      simp only [Bool.not_eq_true] at hpa
      exact hpa

theorem dropWhile_dropWhile {p q : Char → Bool}
    (hpq : ∀ c, p c = true → q c = true) (l : Str) :
    List.dropWhile q (List.dropWhile p l) = List.dropWhile q l := by
  induction l with
  | nil => rfl
  | cons a l ih =>
    rw [List.dropWhile_cons (p := p)]
    split
    · rw [ih, List.dropWhile_cons, if_pos (hpq a ‹_›)]
    · rfl

theorem dropWhile_rdropWhile_comm (p q : Char → Bool) (l : Str) :
    List.dropWhile p (List.rdropWhile q l) =
      List.rdropWhile q (List.dropWhile p l) := by
  induction l using List.reverseRecOn with
  | nil => simp [List.rdropWhile_nil]
  | append_singleton l a ih =>
    by_cases hq : q a = true
    · rw [List.rdropWhile_concat_pos _ _ _ hq, ih, List.dropWhile_append]
      by_cases he : (List.dropWhile p l).isEmpty = true
      · have he' : List.dropWhile p l = [] := by simpa using he
        rw [if_pos he, he', List.rdropWhile_nil, List.dropWhile_cons]
        by_cases hp : p a = true
        · simp [hp, List.rdropWhile_nil]
        · simp [hp, List.rdropWhile_singleton, hq]
      · rw [if_neg he, List.rdropWhile_concat_pos _ _ _ hq]
    · rw [List.rdropWhile_concat_neg _ _ _ hq, List.dropWhile_append]
      by_cases he : (List.dropWhile p l).isEmpty = true
      · have he' : List.dropWhile p l = [] := by simpa using he
        rw [if_pos he, List.dropWhile_cons]
        by_cases hp : p a = true
        · simp [hp, List.rdropWhile_nil]
        · simp [hp, List.rdropWhile_singleton, hq]
      · rw [if_neg he, List.rdropWhile_concat_neg _ _ _ hq]

theorem rdropWhile_rdropWhile {p q : Char → Bool}
    (hpq : ∀ c, p c = true → q c = true) (l : Str) :
    List.rdropWhile q (List.rdropWhile p l) = List.rdropWhile q l := by
  simp only [List.rdropWhile, List.reverse_reverse]
  rw [dropWhile_dropWhile hpq]

/-- The grouping-strip loop on a string with no leading whitespace computes
a `dropWhile` over "whitespace or delimiter". -/
theorem sgLoopF_dropWhile (d : Char → Bool) :
    ∀ (s : Str) (f : Nat), s.length < f →
      sgLoopF d f (List.dropWhile isPyWs s) =
        List.dropWhile (fun c => isPyWs c || d c) s := by
  intro s
  induction s with
  | nil => intro f hf; cases f with
    | zero => omega
    | succ g => rfl
  | cons c s ih =>
    intro f hf
    by_cases hws : isPyWs c = true
    · rw [List.dropWhile_cons, if_pos hws, List.dropWhile_cons (p := fun c => isPyWs c || d c),
        if_pos (by simp [hws])]
      exact ih f (by simp at hf ⊢; omega)
    · rw [List.dropWhile_cons, if_neg hws]
      cases f with
      | zero => omega
      | succ g =>
        show (if d c = true then sgLoopF d g (List.dropWhile isPyWs s) else c :: s) = _
        by_cases hd : d c = true
        · rw [if_pos hd, ih g (by simp at hf ⊢; omega), List.dropWhile_cons,
            if_pos (by simp [hd])]
        · rw [if_neg hd, List.dropWhile_cons, if_neg (by simp [hws, hd])]

/-- "Whitespace or opening delimiter": what the leading strip removes. -/
def sgOpenP (c : Char) : Bool := isPyWs c || isOpenDelim c

/-- "Whitespace or closing delimiter": what the trailing strip removes. -/
def sgCloseP (c : Char) : Bool := isPyWs c || isCloseDelim c

theorem dropWhile_ws_stripWs (s : Str) :
    List.dropWhile isPyWs (stripWs s) = stripWs s := by
  unfold stripWs
  rw [← dropWhile_rdropWhile_comm, dropWhile_dropWhile (fun c h => h)]

/-- Characterization of `_strip_shell_grouping`: one `dropWhile` of
whitespace and opening delimiters at the front, one from the back with
whitespace and closing delimiters. -/
theorem strip_shell_grouping_eq (s : Str) :
    strip_shell_grouping s =
      List.rdropWhile sgCloseP (List.dropWhile sgOpenP s) := by
  simp only [strip_shell_grouping]
  have h1 : sgLoopF isOpenDelim ((stripWs s).length + 1) (stripWs s) =
      List.dropWhile sgOpenP (stripWs s) := by
    have h0 := sgLoopF_dropWhile isOpenDelim (stripWs s) ((stripWs s).length + 1)
      (Nat.lt_succ_self _)
    rw [dropWhile_ws_stripWs s] at h0
    exact h0
  rw [h1]
  have h2 : List.dropWhile sgOpenP (stripWs s) =
      List.rdropWhile isPyWs (List.dropWhile sgOpenP s) := by
    unfold stripWs
    rw [dropWhile_rdropWhile_comm, dropWhile_dropWhile (fun c h => by simp [sgOpenP, h])]
  rw [h2]
  set X := List.dropWhile sgOpenP s with hX
  set t2 := List.rdropWhile isPyWs X with ht2
  have hrev : t2.reverse = List.dropWhile isPyWs X.reverse := by
    rw [ht2]
    simp only [List.rdropWhile, List.reverse_reverse]
  have h3 : List.dropWhile isPyWs t2.reverse = t2.reverse := by
    rw [hrev, dropWhile_dropWhile (fun c h => h)]
  have h4 : sgLoopF isCloseDelim (t2.length + 1) t2.reverse =
      List.dropWhile (fun c => isPyWs c || isCloseDelim c) t2.reverse := by
    conv_lhs => rw [← h3]
    exact sgLoopF_dropWhile isCloseDelim t2.reverse _
      (by simp [Nat.lt_succ_self])
  rw [h4]
  have h5 : List.dropWhile (fun c => isPyWs c || isCloseDelim c) t2.reverse =
      List.dropWhile sgCloseP X.reverse := by
    rw [hrev, dropWhile_dropWhile (fun c h => by simp [sgCloseP, h])]
    rfl
  rw [h5]
  simp only [List.rdropWhile]

/-- Prefixing any whitespace or opening-delimiter character does not change
the stripped fragment. -/
theorem sg_cons_open {c : Char} (h : sgOpenP c = true) (s : Str) :
    strip_shell_grouping (c :: s) = strip_shell_grouping s := by
  rw [strip_shell_grouping_eq, strip_shell_grouping_eq, List.dropWhile_cons, if_pos h]

/-- Suffixing any whitespace or closing-delimiter character does not change
the stripped fragment. -/
theorem sg_concat_close {c : Char} (h : sgCloseP c = true) (s : Str) :
    strip_shell_grouping (s ++ [c]) = strip_shell_grouping s := by
  rw [strip_shell_grouping_eq, strip_shell_grouping_eq, List.dropWhile_append]
  by_cases he : (List.dropWhile sgOpenP s).isEmpty = true
  · have he' : List.dropWhile sgOpenP s = [] := by simpa using he
    rw [if_pos he, he', List.rdropWhile_nil, List.dropWhile_cons]
    by_cases ho : sgOpenP c = true
    · simp [ho, List.rdropWhile_nil]
    · simp [ho, List.rdropWhile_singleton, h]
  · rw [if_neg he, List.rdropWhile_concat_pos _ _ _ h]

theorem sg_lstrip (p : Str) :
    strip_shell_grouping (lstripWs p) = strip_shell_grouping p := by
  rw [strip_shell_grouping_eq, strip_shell_grouping_eq, lstripWs,
    dropWhile_dropWhile (fun c h => by simp [sgOpenP, h])]

theorem sg_rstrip (p : Str) :
    strip_shell_grouping (rstripWs p) = strip_shell_grouping p := by
  rw [strip_shell_grouping_eq, strip_shell_grouping_eq, rstripWs,
    dropWhile_rdropWhile_comm,
    rdropWhile_rdropWhile (fun c h => by simp [sgCloseP, h])]

theorem sg_stripWs (p : Str) :
    strip_shell_grouping (stripWs p) = strip_shell_grouping p := by
  have : stripWs p = rstripWs (lstripWs p) := rfl
  rw [this, sg_rstrip, sg_lstrip]

/-- A fragment that strips to whitespace only strips to the empty
fragment. -/
theorem sg_blank {p : Str} (h : stripWs p = []) : strip_shell_grouping p = [] := by
  have hall : ∀ x ∈ p, isPyWs x = true := by
    have h2 : ∀ x ∈ List.dropWhile isPyWs p, isPyWs x = true :=
      List.rdropWhile_eq_nil_iff.mp h
    have h3 : List.dropWhile isPyWs p = [] := by
      cases hd : List.dropWhile isPyWs p with
      | nil => rfl
      | cons c r =>
        have := h2 c (by rw [hd]; exact List.mem_cons_self c r)
        have hnot := dropWhile_head_not hd
        rw [this] at hnot
        cases hnot
    exact List.dropWhile_eq_nil_iff.mp h3
  rw [strip_shell_grouping_eq]
  have : List.dropWhile sgOpenP p = [] :=
    List.dropWhile_eq_nil_iff.mpr (fun x hx => by simp [sgOpenP, hall x hx])
  rw [this, List.rdropWhile_nil]

/-! ## Equations and structure of the raw separator split -/

theorem naiveAux_nil (acc : Str) : naiveAux acc [] = [acc.reverse] := rfl

theorem naiveAux_semi (acc : Str) (r : Str) :
    naiveAux acc (';' :: r) = acc.reverse :: naiveAux [] r := by
  simp [naiveAux]

theorem naiveAux_andand (acc : Str) (r : Str) :
    naiveAux acc ('&' :: '&' :: r) = acc.reverse :: naiveAux [] r := by
  simp [naiveAux]

theorem naiveAux_pipepipe (acc : Str) (r : Str) :
    naiveAux acc ('|' :: '|' :: r) = acc.reverse :: naiveAux [] r := by
  simp [naiveAux]

theorem naiveAux_pipe_one (acc : Str) {r : Str} (h : r.head? ≠ some '|') :
    naiveAux acc ('|' :: r) = acc.reverse :: naiveAux [] r := by
  match r with
  | [] => simp [naiveAux]
  | c :: r2 =>
    have hc : c ≠ '|' := by
      intro e
      subst e
      simp at h
    simp [naiveAux, hc]

theorem naiveAux_amp_one (acc : Str) {r : Str} (h : r.head? ≠ some '&') :
    naiveAux acc ('&' :: r) = naiveAux ('&' :: acc) r := by
  match r with
  | [] => simp [naiveAux]
  | c :: r2 =>
    have hc : c ≠ '&' := by
      intro e
      subst e
      simp at h
    simp [naiveAux, hc]

theorem naiveAux_other (acc : Str) {c : Char} (r : Str)
    (h1 : c ≠ ';') (h2 : c ≠ '&') (h3 : c ≠ '|') :
    naiveAux acc (c :: r) = naiveAux (c :: acc) r := by
  match r with
  | [] => simp [naiveAux, h1, h2, h3]
  | d :: r2 => simp [naiveAux, h1, h2, h3]

theorem naiveAux_ne_nil (s : Str) (acc : Str) : naiveAux acc s ≠ [] := by
  induction s generalizing acc with
  | nil => simp [naiveAux_nil]
  | cons c r ih =>
    by_cases h1 : c = ';'
    · subst h1; rw [naiveAux_semi]; simp
    · by_cases h2 : c = '&'
      · subst h2
        match r with
        | '&' :: r2 => rw [naiveAux_andand]; simp
        | [] => rw [naiveAux_amp_one acc (by simp)]; simp [naiveAux_nil]
        | d :: r2 =>
          by_cases hd : d = '&'
          · subst hd; rw [naiveAux_andand]; simp
          · rw [naiveAux_amp_one acc (by simp [hd])]
            exact ih _
      · by_cases h3 : c = '|'
        · subst h3
          match r with
          | '|' :: r2 => rw [naiveAux_pipepipe]; simp
          | [] => rw [naiveAux_pipe_one acc (by simp)]; simp
          | d :: r2 =>
            by_cases hd : d = '|'
            · subst hd; rw [naiveAux_pipepipe]; simp
            · rw [naiveAux_pipe_one acc (by simp [hd])]; simp
        · rw [naiveAux_other acc r h1 h2 h3]
          exact ih _

theorem getLastD_irrel {α : Type} {l : List α} (h : l ≠ []) (a b : α) :
    l.getLastD a = l.getLastD b := by
  cases l with
  | nil => cases h rfl
  | cons x l => rw [List.getLastD_cons, List.getLastD_cons]

/-- Pulling the accumulator out of `naiveAux`: the accumulated prefix lands
on the front of the first part. -/
theorem naiveAux_acc (s : Str) :
    ∀ acc, ∃ h t, naiveAux [] s = h :: t ∧ naiveAux acc s = (acc.reverse ++ h) :: t := by
  induction s with
  | nil => intro acc; exact ⟨[], [], rfl, by simp [naiveAux_nil]⟩
  | cons c r ih =>
    intro acc
    by_cases h1 : c = ';'
    · subst h1
      exact ⟨[], naiveAux [] r, by simp [naiveAux_semi], by simp [naiveAux_semi]⟩
    · by_cases h2 : c = '&'
      · subst h2
        match r with
        | [] =>
          refine ⟨['&'], [], ?_, ?_⟩
          · rw [naiveAux_amp_one [] (by simp)]; rfl
          · rw [naiveAux_amp_one acc (by simp)]; simp [naiveAux_nil]
        | '&' :: r2 =>
          exact ⟨[], naiveAux [] r2, by simp [naiveAux_andand], by simp [naiveAux_andand]⟩
        | d :: r2 =>
          by_cases hd : d = '&'
          · subst hd
            exact ⟨[], naiveAux [] r2, by simp [naiveAux_andand], by simp [naiveAux_andand]⟩
          · obtain ⟨h, t, e1, e2⟩ := ih ['&']
            obtain ⟨h', t', e1', e2'⟩ := ih ('&' :: acc)
            rw [e1] at e1'
            refine ⟨'&' :: h, t, ?_, ?_⟩
            · rw [naiveAux_amp_one [] (by simp [hd]), e2]
              simp
            · rw [naiveAux_amp_one acc (by simp [hd]), e2']
              have hh : h' = h := by
                have := e1'
                simp at this
                exact this.1.symm
              have ht : t' = t := by
                have := e1'
                simp at this
                exact this.2.symm
              rw [hh, ht]
              simp
      · by_cases h3 : c = '|'
        · subst h3
          match r with
          | [] =>
            exact ⟨[], [[]], by rw [naiveAux_pipe_one [] (by simp)]; rfl,
              by rw [naiveAux_pipe_one acc (by simp)]; simp [naiveAux_nil]⟩
          | '|' :: r2 =>
            exact ⟨[], naiveAux [] r2, by simp [naiveAux_pipepipe], by simp [naiveAux_pipepipe]⟩
          | d :: r2 =>
            by_cases hd : d = '|'
            · subst hd
              exact ⟨[], naiveAux [] r2, by simp [naiveAux_pipepipe], by simp [naiveAux_pipepipe]⟩
            · exact ⟨[], naiveAux [] (d :: r2),
                by rw [naiveAux_pipe_one [] (by simp [hd])]; rfl,
                by rw [naiveAux_pipe_one acc (by simp [hd])]; simp⟩
        · obtain ⟨h, t, e1, e2⟩ := ih [c]
          obtain ⟨h', t', e1', e2'⟩ := ih (c :: acc)
          rw [e1] at e1'
          refine ⟨c :: h, t, ?_, ?_⟩
          · rw [naiveAux_other [] r h1 h2 h3, e2]
            simp
          · rw [naiveAux_other acc r h1 h2 h3, e2']
            have hh : h' = h := by
              have := e1'
              simp at this
              exact this.1.symm
            have ht : t' = t := by
              have := e1'
              simp at this
              exact this.2.symm
            rw [hh, ht]
            simp

/-- Splitting an appended string whose appended part does not begin with
`&` or `|`: the parts of `s` survive unchanged except the last, which
continues into `t` with the scanner state (the last part, reversed) as
accumulator. -/
theorem naiveAux_append (t : Str) (ht1 : t.head? ≠ some '&') (ht2 : t.head? ≠ some '|') :
    ∀ (n : Nat) (s : Str), s.length ≤ n → ∀ acc,
      naiveAux acc (s ++ t) =
        (naiveAux acc s).dropLast ++
          naiveAux ((naiveAux acc s).getLastD []).reverse t := by
  intro n
  induction n with
  | zero =>
    intro s hs acc
    have hnil : s = [] := List.length_eq_zero.mp (Nat.le_zero.mp hs)
    subst hnil
    simp [naiveAux_nil, List.getLastD_cons]
  | succ n ih =>
    intro s hs acc
    match s, hs with
    | [], _ => simp [naiveAux_nil, List.getLastD_cons]
    | c :: r, hs =>
      by_cases h1 : c = ';'
      · subst h1
        rw [List.cons_append, naiveAux_semi, naiveAux_semi,
          ih r (by simp at hs; omega) []]
        have hne := naiveAux_ne_nil r ([] : Str)
        rw [List.dropLast_cons_of_ne_nil hne, List.getLastD_cons,
          getLastD_irrel hne acc.reverse []]
        simp
      · by_cases h2 : c = '&'
        · subst h2
          match r, hs with
          | [], _ =>
            rw [List.cons_append, List.nil_append, naiveAux_amp_one acc ht1,
              naiveAux_amp_one acc (by simp)]
            simp [naiveAux_nil, List.getLastD_cons]
          | '&' :: r2, hs =>
            rw [List.cons_append, List.cons_append, naiveAux_andand, naiveAux_andand,
              ih r2 (by simp at hs; omega) []]
            have hne := naiveAux_ne_nil r2 ([] : Str)
            rw [List.dropLast_cons_of_ne_nil hne, List.getLastD_cons,
              getLastD_irrel hne acc.reverse []]
            simp
          | d :: r2, hs =>
            by_cases hd : d = '&'
            · subst hd
              rw [List.cons_append, List.cons_append, naiveAux_andand, naiveAux_andand,
                ih r2 (by simp at hs; omega) []]
              have hne := naiveAux_ne_nil r2 ([] : Str)
              rw [List.dropLast_cons_of_ne_nil hne, List.getLastD_cons,
                getLastD_irrel hne acc.reverse []]
              simp
            · rw [List.cons_append, naiveAux_amp_one acc (by simp [hd]),
                naiveAux_amp_one acc (by simp [hd])]
              exact ih (d :: r2) (by simp at hs ⊢; omega) ('&' :: acc)
        · by_cases h3 : c = '|'
          · subst h3
            match r, hs with
            | [], _ =>
              rw [List.cons_append, List.nil_append, naiveAux_pipe_one acc ht2,
                naiveAux_pipe_one acc (by simp)]
              simp [naiveAux_nil, List.getLastD_cons]
            | '|' :: r2, hs =>
              rw [List.cons_append, List.cons_append, naiveAux_pipepipe, naiveAux_pipepipe,
                ih r2 (by simp at hs; omega) []]
              have hne := naiveAux_ne_nil r2 ([] : Str)
              rw [List.dropLast_cons_of_ne_nil hne, List.getLastD_cons,
                getLastD_irrel hne acc.reverse []]
              simp
            | d :: r2, hs =>
              by_cases hd : d = '|'
              · subst hd
                rw [List.cons_append, List.cons_append, naiveAux_pipepipe, naiveAux_pipepipe,
                  ih r2 (by simp at hs; omega) []]
                have hne := naiveAux_ne_nil r2 ([] : Str)
                rw [List.dropLast_cons_of_ne_nil hne, List.getLastD_cons,
                  getLastD_irrel hne acc.reverse []]
                simp
              · rw [List.cons_append, naiveAux_pipe_one acc (by simp [hd]),
                  naiveAux_pipe_one acc (by simp [hd]),
                  ih (d :: r2) (by simp at hs ⊢; omega) []]
                have hne := naiveAux_ne_nil (d :: r2) ([] : Str)
                rw [List.dropLast_cons_of_ne_nil hne, List.getLastD_cons,
                  getLastD_irrel hne acc.reverse []]
                simp
          · rw [List.cons_append, naiveAux_other acc (r ++ t) h1 h2 h3,
              naiveAux_other acc r h1 h2 h3]
            exact ih r (by simp at hs; omega) (c :: acc)

/-- `naiveAux_append` specialised to `naiveSplit`. -/
theorem naiveSplit_append (t : Str) (ht1 : t.head? ≠ some '&') (ht2 : t.head? ≠ some '|')
    (s : Str) :
    naiveSplit (s ++ t) =
      (naiveSplit s).dropLast ++
        naiveAux ((naiveSplit s).getLastD []).reverse t :=
  naiveAux_append t ht1 ht2 s.length s (Nat.le_refl _) []

/-! ## Fragment lists -/

/-- The fragments a part list contributes: strip each part, drop empties. -/
def partFrags (ps : List Str) : List Str :=
  (ps.map strip_shell_grouping).filter (fun p => !p.isEmpty)

/-- The fragments of one separator-split text. -/
def textFrags (s : Str) : List Str := partFrags (naiveSplit s)

theorem partFrags_append (xs ys : List Str) :
    partFrags (xs ++ ys) = partFrags xs ++ partFrags ys := by
  simp [partFrags, List.filter_append]

theorem partFrags_cons_sg {p q : Str}
    (h : strip_shell_grouping p = strip_shell_grouping q) (l : List Str) :
    partFrags (p :: l) = partFrags (q :: l) := by
  simp only [partFrags, List.map_cons, List.filter_cons, h]

/-- Filtering blank parts before stripping changes nothing: a blank part
strips to the empty fragment, which the final filter drops anyway. -/
theorem filter_blank_partFrags (ps : List Str) :
    ((ps.filter (fun p => !(stripWs p).isEmpty)).map strip_shell_grouping).filter
      (fun p => !p.isEmpty) = partFrags ps := by
  induction ps with
  | nil => rfl
  | cons p ps ih =>
    rw [List.filter_cons]
    rw [partFrags] at ih ⊢
    by_cases hb : (stripWs p).isEmpty = true
    · have hsg : strip_shell_grouping p = [] := sg_blank (by simpa using hb)
      rw [if_neg (by simp [hb])]
      rw [ih, List.map_cons, List.filter_cons, hsg]
      simp
    · rw [if_pos (by simp [hb])]
      rw [List.map_cons, List.filter_cons, List.map_cons, List.filter_cons]
      by_cases he : (!(strip_shell_grouping p).isEmpty) = true
      · rw [if_pos he, if_pos he, ih]
      · rw [if_neg he, if_neg he, ih]

theorem partFrags_trimTail (ps : List Str) :
    partFrags (trimTail ps) = partFrags ps := by
  induction ps with
  | nil => rfl
  | cons p ps ih =>
    cases ps with
    | nil =>
      show partFrags [lstripWs p] = partFrags [p]
      exact partFrags_cons_sg (sg_lstrip p) []
    | cons q qs =>
      show partFrags (stripWs p :: trimTail (q :: qs)) = _
      rw [partFrags_cons_sg (sg_stripWs p) (trimTail (q :: qs))]
      show partFrags ([p] ++ trimTail (q :: qs)) = partFrags ([p] ++ (q :: qs))
      rw [partFrags_append, partFrags_append, ih]

/-- `re.split` parts and raw parts produce the same fragments. -/
theorem partFrags_splitSeps (s : Str) :
    partFrags (splitSeps s) = textFrags s := by
  unfold splitSeps textFrags
  match h : naiveSplit s with
  | [] => rfl
  | [p] => rfl
  | p :: q :: qs =>
    rw [partFrags_cons_sg (sg_rstrip p) (trimTail (q :: qs))]
    show partFrags ([p] ++ trimTail (q :: qs)) = partFrags ([p] ++ (q :: qs))
    rw [partFrags_append, partFrags_append, partFrags_trimTail]

theorem filter_flatMap (l : List Str) (f : Str → List Str) (g : Str → Bool) :
    (l.flatMap f).filter g = l.flatMap (fun x => (f x).filter g) := by
  induction l with
  | nil => rfl
  | cons x l ih => simp [List.flatMap_cons, List.filter_append, ih]

/-- Characterization of the decomposer: the fragments of the flattened
outer text followed by the fragments of each extracted subshell text. -/
theorem split_shell_commands_eq (cmd : Str) :
    split_shell_commands cmd =
      textFrags (flattenSubs cmd) ++
        (extract_subshells cmd).flatMap textFrags := by
  unfold split_shell_commands
  simp only [List.filter_append]
  congr 1
  · exact filter_blank_partFrags (splitSeps (flattenSubs cmd)) |>.trans
      (partFrags_splitSeps (flattenSubs cmd))
  · rw [filter_flatMap]
    congr 1
    funext sub
    exact (filter_blank_partFrags (splitSeps sub)).trans (partFrags_splitSeps sub)

/-! ## Substitution-scanner lemmas -/

theorem dollarCapture_clean {s : Str} (h1 : '(' ∉ s) (h2 : ')' ∉ s) (t : Str) :
    dollarCapture (s ++ ')' :: t) = some (s, t) := by
  induction s with
  | nil => rfl
  | cons c r ih =>
    have hc1 : c ≠ '(' := fun e => h1 (e ▸ List.mem_cons_self c r)
    have hc2 : c ≠ ')' := fun e => h2 (e ▸ List.mem_cons_self c r)
    have hr1 : '(' ∉ r := fun hm => h1 (List.mem_cons_of_mem c hm)
    have hr2 : ')' ∉ r := fun hm => h2 (List.mem_cons_of_mem c hm)
    rw [List.cons_append]
    show dollarCapture (c :: (r ++ ')' :: t)) = _
    rw [dollarCapture]
    rw [if_neg hc2, if_neg hc1, ih hr1 hr2]
    rfl

theorem dollarCapture_decomp :
    ∀ {s c r : Str}, dollarCapture s = some (c, r) → s = c ++ ')' :: r := by
  intro s
  induction s with
  | nil => intro c r h; cases h
  | cons a l ih =>
    intro c r h
    rw [dollarCapture] at h
    by_cases ha : a = ')'
    · rw [if_pos ha] at h
      cases h
      rw [ha]
      rfl
    · rw [if_neg ha] at h
      by_cases ha2 : a = '('
      · rw [if_pos ha2] at h; cases h
      · rw [if_neg ha2] at h
        match hcap : dollarCapture l with
        | none => rw [hcap] at h; cases h
        | some (c2, r2) =>
          rw [hcap] at h
          cases h
          rw [ih hcap]
          rfl

theorem dollarFind_cons_other {c : Char} (r : Str) (hc : c ≠ '$') :
    dollarFind (c :: r) = (dollarFind r).map (fun x => (c :: x.1, x.2.1, x.2.2)) := by
  match r with
  | [] => simp [dollarFind, hc]
  | '(' :: r2 => simp [dollarFind, hc]
  | d :: r2 => simp [dollarFind, hc]

theorem dollarFind_dollar_other {d : Char} (r : Str) (hd : d ≠ '(') :
    dollarFind ('$' :: d :: r) = (dollarFind (d :: r)).map
      (fun x => ('$' :: x.1, x.2.1, x.2.2)) := by
  simp [dollarFind, hd]

theorem dollarFind_none : ∀ {s : Str}, '(' ∉ s → dollarFind s = none := by
  intro s
  induction s with
  | nil => intro _; rfl
  | cons c r ih =>
    intro h
    have hr : '(' ∉ r := fun hm => h (List.mem_cons_of_mem c hm)
    by_cases hc : c = '$'
    · subst hc
      cases r with
      | nil => rfl
      | cons d r2 =>
        have hd : d ≠ '(' := fun e => hr (e ▸ List.mem_cons_self d r2)
        rw [dollarFind_dollar_other r2 hd, ih hr]
        rfl
    · rw [dollarFind_cons_other r hc, ih hr]
      rfl

theorem dollarFind_wrap {s : Str} (h1 : '(' ∉ s) (h2 : ')' ∉ s) (t : Str) :
    dollarFind ('$' :: '(' :: (s ++ ')' :: t)) = some ([], s, t) := by
  show (match dollarCapture (s ++ ')' :: t) with
    | some (cap, rest) => some (([] : Str), cap, rest)
    | none => (dollarFind (s ++ ')' :: t)).map
        (fun x => ('$' :: '(' :: x.1, x.2.1, x.2.2))) = some ([], s, t)
  rw [dollarCapture_clean h1 h2 t]

theorem dollarFind_decomp :
    ∀ {s p c r : Str}, dollarFind s = some (p, c, r) →
      s = p ++ '$' :: '(' :: (c ++ ')' :: r) := by
  intro s
  induction s with
  | nil => intro p c r h; cases h
  | cons a l ih =>
    intro p c r h
    by_cases ha : a = '$'
    · subst ha
      cases l with
      | nil => cases h
      | cons d l2 =>
        by_cases hd : d = '('
        · subst hd
          rw [show dollarFind ('$' :: '(' :: l2) =
              (match dollarCapture l2 with
               | some (cap, rest) => some (([] : Str), cap, rest)
               | none => (dollarFind l2).map
                   (fun x => ('$' :: '(' :: x.1, x.2.1, x.2.2))) from rfl] at h
          match hcap : dollarCapture l2 with
          | some (c2, r2) =>
            rw [hcap] at h
            cases h
            rw [dollarCapture_decomp hcap]
            rfl
          | none =>
            rw [hcap] at h
            match hf : dollarFind l2 with
            | none => rw [hf] at h; cases h
            | some (p3, c3, r3) =>
              rw [hf] at h
              cases h
              have hf2 : dollarFind ('(' :: l2) = some ('(' :: p3, c3, r3) := by
                rw [dollarFind_cons_other l2 (by decide), hf]
                rfl
              have h2 : l2 = p3 ++ '$' :: '(' :: (c3 ++ ')' :: r3) := by
                simpa using ih hf2
              rw [h2]
              rfl
        · rw [dollarFind_dollar_other l2 hd] at h
          match hf : dollarFind (d :: l2) with
          | none => rw [hf] at h; cases h
          | some (p3, c3, r3) =>
            rw [hf] at h
            cases h
            rw [List.cons_append]
            rw [ih hf]
    · rw [dollarFind_cons_other l ha] at h
      match hf : dollarFind l with
      | none => rw [hf] at h; cases h
      | some (p3, c3, r3) =>
        rw [hf] at h
        cases h
        rw [List.cons_append, ih hf]

theorem backtickCapture_clean {s : Str} (h : btk ∉ s) (t : Str) :
    backtickCapture (s ++ btk :: t) = some (s, t) := by
  induction s with
  | nil =>
    rw [List.nil_append, backtickCapture, if_pos rfl]
  | cons c r ih =>
    have hc : c ≠ btk := fun e => h (e ▸ List.mem_cons_self c r)
    have hr : btk ∉ r := fun hm => h (List.mem_cons_of_mem c hm)
    rw [List.cons_append, backtickCapture, if_neg hc, ih hr]
    rfl

theorem backtickCapture_decomp :
    ∀ {s c r : Str}, backtickCapture s = some (c, r) → s = c ++ btk :: r := by
  intro s
  induction s with
  | nil => intro c r h; cases h
  | cons a l ih =>
    intro c r h
    rw [backtickCapture] at h
    by_cases ha : a = btk
    · rw [if_pos ha] at h
      cases h
      rw [ha]
      rfl
    · rw [if_neg ha] at h
      match hcap : backtickCapture l with
      | none => rw [hcap] at h; cases h
      | some (c2, r2) =>
        rw [hcap] at h
        cases h
        rw [ih hcap]
        rfl

theorem backtickFind_cons_other {c : Char} (r : Str) (hc : c ≠ btk) :
    backtickFind (c :: r) = (backtickFind r).map
      (fun x => (c :: x.1, x.2.1, x.2.2)) := by
  rw [backtickFind, if_neg hc]

theorem backtickFind_none : ∀ {s : Str}, btk ∉ s → backtickFind s = none := by
  intro s
  induction s with
  | nil => intro _; rfl
  | cons c r ih =>
    intro h
    have hc : c ≠ btk := fun e => h (e ▸ List.mem_cons_self c r)
    have hr : btk ∉ r := fun hm => h (List.mem_cons_of_mem c hm)
    rw [backtickFind_cons_other r hc, ih hr]
    rfl

theorem backtickFind_wrap {s : Str} (h : btk ∉ s) (t : Str) :
    backtickFind (btk :: (s ++ btk :: t)) = some ([], s, t) := by
  rw [backtickFind, if_pos rfl, backtickCapture_clean h t]

theorem backtickFind_decomp :
    ∀ {s p c r : Str}, backtickFind s = some (p, c, r) →
      s = p ++ btk :: (c ++ btk :: r) := by
  intro s
  induction s with
  | nil => intro p c r h; cases h
  | cons a l ih =>
    intro p c r h
    by_cases ha : a = btk
    · rw [backtickFind, if_pos ha] at h
      match hcap : backtickCapture l with
      | none => rw [hcap] at h; cases h
      | some (c2, r2) =>
        rw [hcap] at h
        cases h
        rw [ha, backtickCapture_decomp hcap]
        rfl
    · rw [backtickFind_cons_other l ha] at h
      match hf : backtickFind l with
      | none => rw [hf] at h; cases h
      | some (p3, c3, r3) =>
        rw [hf] at h
        cases h
        rw [List.cons_append, ih hf]

/-! ## Fuel elimination for the substitution passes -/

theorem dollarFindAllF_succ (f : Nat) (s : Str) :
    dollarFindAllF (f + 1) s =
      match dollarFind s with
      | none => []
      | some (_, cap, rest) => cap :: dollarFindAllF f rest := rfl

theorem dollarSubAllF_succ (f : Nat) (s : Str) :
    dollarSubAllF (f + 1) s =
      match dollarFind s with
      | none => s
      | some (pre, _, rest) => pre ++ ' ' :: dollarSubAllF f rest := rfl

theorem backtickFindAllF_succ (f : Nat) (s : Str) :
    backtickFindAllF (f + 1) s =
      match backtickFind s with
      | none => []
      | some (_, cap, rest) => cap :: backtickFindAllF f rest := rfl

theorem backtickSubAllF_succ (f : Nat) (s : Str) :
    backtickSubAllF (f + 1) s =
      match backtickFind s with
      | none => s
      | some (pre, _, rest) => pre ++ ' ' :: backtickSubAllF f rest := rfl

theorem dollarFind_rest_lt {s p c r : Str} (h : dollarFind s = some (p, c, r)) :
    r.length < s.length := by
  have := congrArg List.length (dollarFind_decomp h)
  simp at this
  omega

theorem backtickFind_rest_lt {s p c r : Str} (h : backtickFind s = some (p, c, r)) :
    r.length < s.length := by
  have := congrArg List.length (backtickFind_decomp h)
  simp at this
  omega

theorem dollarFindAllF_mono :
    ∀ (f : Nat) (s : Str), s.length < f → dollarFindAllF f s = dollarFindAll s := by
  intro f
  induction f using Nat.strong_induction_on with
  | _ f ih =>
    intro s hs
    match f, hs with
    | g + 1, hs =>
      rw [dollarFindAll, dollarFindAllF_succ, dollarFindAllF_succ]
      match hf : dollarFind s with
      | none => rfl
      | some (p, c, r) =>
        have hr : r.length < s.length := dollarFind_rest_lt hf
        show c :: dollarFindAllF g r = c :: dollarFindAllF s.length r
        rw [ih g (Nat.lt_succ_self g) r (by omega),
          ih s.length (by omega) r hr]

theorem dollarSubAllF_mono :
    ∀ (f : Nat) (s : Str), s.length < f → dollarSubAllF f s = dollarSubAll s := by
  intro f
  induction f using Nat.strong_induction_on with
  | _ f ih =>
    intro s hs
    match f, hs with
    | g + 1, hs =>
      rw [dollarSubAll, dollarSubAllF_succ, dollarSubAllF_succ]
      match hf : dollarFind s with
      | none => rfl
      | some (p, c, r) =>
        have hr : r.length < s.length := dollarFind_rest_lt hf
        show p ++ ' ' :: dollarSubAllF g r = p ++ ' ' :: dollarSubAllF s.length r
        rw [ih g (Nat.lt_succ_self g) r (by omega),
          ih s.length (by omega) r hr]

theorem backtickFindAllF_mono :
    ∀ (f : Nat) (s : Str), s.length < f → backtickFindAllF f s = backtickFindAll s := by
  intro f
  induction f using Nat.strong_induction_on with
  | _ f ih =>
    intro s hs
    match f, hs with
    | g + 1, hs =>
      rw [backtickFindAll, backtickFindAllF_succ, backtickFindAllF_succ]
      match hf : backtickFind s with
      | none => rfl
      | some (p, c, r) =>
        have hr : r.length < s.length := backtickFind_rest_lt hf
        show c :: backtickFindAllF g r = c :: backtickFindAllF s.length r
        rw [ih g (Nat.lt_succ_self g) r (by omega),
          ih s.length (by omega) r hr]

theorem backtickSubAllF_mono :
    ∀ (f : Nat) (s : Str), s.length < f → backtickSubAllF f s = backtickSubAll s := by
  intro f
  induction f using Nat.strong_induction_on with
  | _ f ih =>
    intro s hs
    match f, hs with
    | g + 1, hs =>
      rw [backtickSubAll, backtickSubAllF_succ, backtickSubAllF_succ]
      match hf : backtickFind s with
      | none => rfl
      | some (p, c, r) =>
        have hr : r.length < s.length := backtickFind_rest_lt hf
        show p ++ ' ' :: backtickSubAllF g r = p ++ ' ' :: backtickSubAllF s.length r
        rw [ih g (Nat.lt_succ_self g) r (by omega),
          ih s.length (by omega) r hr]

theorem dollarFindAll_eq_none {s : Str} (h : dollarFind s = none) :
    dollarFindAll s = [] := by
  rw [dollarFindAll, dollarFindAllF_succ, h]

theorem dollarFindAll_eq_some {s p c r : Str} (h : dollarFind s = some (p, c, r)) :
    dollarFindAll s = c :: dollarFindAll r := by
  rw [dollarFindAll, dollarFindAllF_succ, h]
  show c :: dollarFindAllF s.length r = c :: dollarFindAll r
  rw [dollarFindAllF_mono s.length r (dollarFind_rest_lt h)]

theorem dollarSubAll_eq_none {s : Str} (h : dollarFind s = none) :
    dollarSubAll s = s := by
  rw [dollarSubAll, dollarSubAllF_succ, h]

theorem dollarSubAll_eq_some {s p c r : Str} (h : dollarFind s = some (p, c, r)) :
    dollarSubAll s = p ++ ' ' :: dollarSubAll r := by
  rw [dollarSubAll, dollarSubAllF_succ, h]
  show p ++ ' ' :: dollarSubAllF s.length r = p ++ ' ' :: dollarSubAll r
  rw [dollarSubAllF_mono s.length r (dollarFind_rest_lt h)]

theorem backtickFindAll_eq_none {s : Str} (h : backtickFind s = none) :
    backtickFindAll s = [] := by
  rw [backtickFindAll, backtickFindAllF_succ, h]

theorem backtickFindAll_eq_some {s p c r : Str} (h : backtickFind s = some (p, c, r)) :
    backtickFindAll s = c :: backtickFindAll r := by
  rw [backtickFindAll, backtickFindAllF_succ, h]
  show c :: backtickFindAllF s.length r = c :: backtickFindAll r
  rw [backtickFindAllF_mono s.length r (backtickFind_rest_lt h)]

theorem backtickSubAll_eq_none {s : Str} (h : backtickFind s = none) :
    backtickSubAll s = s := by
  rw [backtickSubAll, backtickSubAllF_succ, h]

theorem backtickSubAll_eq_some {s p c r : Str} (h : backtickFind s = some (p, c, r)) :
    backtickSubAll s = p ++ ' ' :: backtickSubAll r := by
  rw [backtickSubAll, backtickSubAllF_succ, h]
  show p ++ ' ' :: backtickSubAllF s.length r = p ++ ' ' :: backtickSubAll r
  rw [backtickSubAllF_mono s.length r (backtickFind_rest_lt h)]

theorem dollarSubAll_length_le : ∀ (s : Str), (dollarSubAll s).length ≤ s.length := by
  have H : ∀ (n : Nat) (s : Str), s.length ≤ n → (dollarSubAll s).length ≤ s.length := by
    intro n
    induction n using Nat.strong_induction_on with
    | _ n ih =>
      intro s hs
      match hf : dollarFind s with
      | none => rw [dollarSubAll_eq_none hf]
      | some (p, c, r) =>
        have hr : r.length < s.length := dollarFind_rest_lt hf
        have hlen := congrArg List.length (dollarFind_decomp hf)
        simp at hlen
        have h2 : (dollarSubAll r).length ≤ r.length := by
          cases n with
          | zero => omega
          | succ m => exact ih m (Nat.lt_succ_self m) r (by omega)
        rw [dollarSubAll_eq_some hf]
        simp
        omega
  exact fun s => H s.length s (Nat.le_refl _)

theorem dollarSubAll_length_lt {s p c r : Str} (h : dollarFind s = some (p, c, r)) :
    (dollarSubAll s).length < s.length := by
  have hlen := congrArg List.length (dollarFind_decomp h)
  simp at hlen
  have := dollarSubAll_length_le r
  rw [dollarSubAll_eq_some h]
  simp
  omega

theorem backtickSubAll_length_le : ∀ (s : Str), (backtickSubAll s).length ≤ s.length := by
  have H : ∀ (n : Nat) (s : Str), s.length ≤ n → (backtickSubAll s).length ≤ s.length := by
    intro n
    induction n using Nat.strong_induction_on with
    | _ n ih =>
      intro s hs
      match hf : backtickFind s with
      | none => rw [backtickSubAll_eq_none hf]
      | some (p, c, r) =>
        have hr : r.length < s.length := backtickFind_rest_lt hf
        have hlen := congrArg List.length (backtickFind_decomp hf)
        simp at hlen
        have h2 : (backtickSubAll r).length ≤ r.length := by
          cases n with
          | zero => omega
          | succ m => exact ih m (Nat.lt_succ_self m) r (by omega)
        rw [backtickSubAll_eq_some hf]
        simp
        omega
  exact fun s => H s.length s (Nat.le_refl _)

theorem backtickSubAll_length_lt {s p c r : Str} (h : backtickFind s = some (p, c, r)) :
    (backtickSubAll s).length < s.length := by
  have hlen := congrArg List.length (backtickFind_decomp h)
  simp at hlen
  have := backtickSubAll_length_le r
  rw [backtickSubAll_eq_some h]
  simp
  omega

theorem subsOnce_length_lt {s : Str}
    (h : ¬(dollarFind s = none ∧ backtickFind s = none)) :
    (subsOnce s).length < s.length := by
  unfold subsOnce
  match hf : dollarFind s with
  | some (p, c, r) =>
    calc (backtickSubAll (dollarSubAll s)).length
        ≤ (dollarSubAll s).length := backtickSubAll_length_le _
      _ < s.length := dollarSubAll_length_lt hf
  | none =>
    rw [dollarSubAll_eq_none hf]
    match hb : backtickFind s with
    | some (p, c, r) => exact backtickSubAll_length_lt hb
    | none => exact absurd ⟨hf, hb⟩ h

/-! ## Equations for extraction and flattening -/

theorem extract_subshellsF_succ (f : Nat) (s : Str) :
    extract_subshellsF (f + 1) s =
      (if dollarFindAll s = [] ∧ backtickFindAll s = [] then []
       else (dollarFindAll s ++ backtickFindAll s) ++ extract_subshellsF f (subsOnce s)) := by
  show (let inner := dollarFindAll s
        let bts := backtickFindAll s
        if inner = [] && bts = [] then []
        else (inner ++ bts) ++ extract_subshellsF f (subsOnce s)) = _
  simp only [Bool.and_eq_true, decide_eq_true_eq]

theorem dollarFindAll_nil_iff (s : Str) :
    dollarFindAll s = [] ↔ dollarFind s = none := by
  match hf : dollarFind s with
  | none => simp [dollarFindAll_eq_none hf]
  | some (p, c, r) => simp [dollarFindAll_eq_some hf]

theorem backtickFindAll_nil_iff (s : Str) :
    backtickFindAll s = [] ↔ backtickFind s = none := by
  match hf : backtickFind s with
  | none => simp [backtickFindAll_eq_none hf]
  | some (p, c, r) => simp [backtickFindAll_eq_some hf]

theorem extract_subshellsF_mono :
    ∀ (f : Nat) (s : Str), s.length < f → extract_subshellsF f s = extract_subshells s := by
  intro f
  induction f using Nat.strong_induction_on with
  | _ f ih =>
    intro s hs
    match f, hs with
    | g + 1, hs =>
      rw [extract_subshells, extract_subshellsF_succ, extract_subshellsF_succ]
      by_cases hc : dollarFindAll s = [] ∧ backtickFindAll s = []
      · rw [if_pos hc, if_pos hc]
      · rw [if_neg hc, if_neg hc]
        have hlt : (subsOnce s).length < s.length := by
          apply subsOnce_length_lt
          intro ⟨h1, h2⟩
          exact hc ⟨dollarFindAll_eq_none h1, backtickFindAll_eq_none h2⟩
        rw [ih g (Nat.lt_succ_self g) (subsOnce s) (by omega),
          ih s.length (by omega) (subsOnce s) hlt]

theorem extract_subshells_nil {s : Str}
    (h1 : dollarFind s = none) (h2 : backtickFind s = none) :
    extract_subshells s = [] := by
  rw [extract_subshells, extract_subshellsF_succ,
    if_pos ⟨dollarFindAll_eq_none h1, backtickFindAll_eq_none h2⟩]

theorem extract_subshells_step {s : Str}
    (h : ¬(dollarFind s = none ∧ backtickFind s = none)) :
    extract_subshells s =
      (dollarFindAll s ++ backtickFindAll s) ++ extract_subshells (subsOnce s) := by
  rw [extract_subshells, extract_subshellsF_succ]
  rw [if_neg (by
    intro ⟨h1, h2⟩
    exact h ⟨(dollarFindAll_nil_iff s).mp h1, (backtickFindAll_nil_iff s).mp h2⟩)]
  rw [extract_subshellsF_mono s.length (subsOnce s)
    (subsOnce_length_lt (by
      intro ⟨h1, h2⟩
      exact h ⟨h1, h2⟩))]

theorem flattenSubsF_succ (f : Nat) (s : Str) :
    flattenSubsF (f + 1) s =
      if (dollarFind s).isSome || (backtickFind s).isSome then
        flattenSubsF f (subsOnce s)
      else s := rfl

theorem flattenSubsF_mono :
    ∀ (f : Nat) (s : Str), s.length < f → flattenSubsF f s = flattenSubs s := by
  intro f
  induction f using Nat.strong_induction_on with
  | _ f ih =>
    intro s hs
    match f, hs with
    | g + 1, hs =>
      rw [flattenSubs, flattenSubsF_succ, flattenSubsF_succ]
      by_cases hc : ((dollarFind s).isSome || (backtickFind s).isSome) = true
      · rw [if_pos hc, if_pos hc]
        have hlt : (subsOnce s).length < s.length := by
          apply subsOnce_length_lt
          intro ⟨h1, h2⟩
          simp [h1, h2] at hc
        rw [ih g (Nat.lt_succ_self g) (subsOnce s) (by omega),
          ih s.length (by omega) (subsOnce s) hlt]
      · rw [if_neg hc, if_neg hc]

theorem flattenSubs_self {s : Str}
    (h1 : dollarFind s = none) (h2 : backtickFind s = none) :
    flattenSubs s = s := by
  rw [flattenSubs, flattenSubsF_succ, if_neg (by simp [h1, h2])]

theorem flattenSubs_step {s : Str}
    (h : ¬(dollarFind s = none ∧ backtickFind s = none)) :
    flattenSubs s = flattenSubs (subsOnce s) := by
  rw [flattenSubs, flattenSubsF_succ]
  have hc : ((dollarFind s).isSome || (backtickFind s).isSome) = true := by
    match hf : dollarFind s with
    | some _ => simp
    | none =>
      match hb : backtickFind s with
      | some _ => simp
      | none => exact absurd ⟨hf, hb⟩ h
  rw [if_pos hc]
  exact flattenSubsF_mono s.length (subsOnce s)
    (subsOnce_length_lt h)

/-! ## Decomposition of wrapped and joined clean commands -/

theorem split_shell_commands_clean {s : Str} (h : cleanCmd s) :
    split_shell_commands s = textFrags s := by
  have hd : dollarFind s = none := dollarFind_none h.1
  have hb : backtickFind s = none := backtickFind_none h.2.2
  rw [split_shell_commands_eq, extract_subshells_nil hd hb, flattenSubs_self hd hb]
  simp

theorem dollarFind_append_rparen : ∀ {s : Str}, '(' ∉ s → dollarFind (s ++ [')']) = none := by
  intro s
  induction s with
  | nil => intro _; rfl
  | cons c r ih =>
    intro h
    have hr : '(' ∉ r := fun hm => h (List.mem_cons_of_mem c hm)
    by_cases hc : c = '$'
    · subst hc
      cases r with
      | nil => rfl
      | cons d r2 =>
        have hd : d ≠ '(' := fun e => hr (e ▸ List.mem_cons_self d r2)
        rw [List.cons_append, List.cons_append,
          dollarFind_dollar_other (r2 ++ [')']) hd]
        rw [show (d :: r2) ++ [')'] = d :: (r2 ++ [')']) from rfl] at ih
        rw [ih hr]
        rfl
    · rw [List.cons_append, dollarFind_cons_other (r ++ [')']) hc, ih hr]
      rfl

/-- Helper: restore a list from its `dropLast` and `getLastD`. -/
theorem dropLast_append_getLastD :
    ∀ {l : List Str}, l ≠ [] → ∀ d, l.dropLast ++ [l.getLastD d] = l := by
  intro l
  induction l with
  | nil => intro h; cases h rfl
  | cons x l ih =>
    intro _ d
    cases l with
    | nil => rfl
    | cons y l2 =>
      rw [List.dropLast_cons_of_ne_nil (by simp), List.getLastD_cons,
        getLastD_irrel (by simp) x d]
      rw [List.cons_append, ih (by simp) d]

theorem partFrags_singleton_sg {p q : Str}
    (h : strip_shell_grouping p = strip_shell_grouping q) :
    partFrags [p] = partFrags [q] := partFrags_cons_sg h []

/-- Bare parentheses around any text leave its fragments unchanged. -/
theorem textFrags_parenWrap (s : Str) : textFrags (parenWrap s) = textFrags s := by
  unfold textFrags parenWrap
  rw [show naiveSplit ('(' :: (s ++ [')'])) = naiveAux ['('] (s ++ [')']) from
    naiveAux_other [] (s ++ [')']) (by decide) (by decide) (by decide)]
  rw [naiveAux_append [')'] (by decide) (by decide) s.length s (Nat.le_refl _) ['(']]
  set P := naiveAux ['('] s with hP
  have hPne : P ≠ [] := naiveAux_ne_nil s ['(']
  rw [show naiveAux (P.getLastD []).reverse [')'] = [(P.getLastD []) ++ [')']] by
    rw [naiveAux_other _ [] (by decide) (by decide) (by decide), naiveAux_nil]
    simp]
  rw [partFrags_append, partFrags_singleton_sg (sg_concat_close (by decide) _),
    ← partFrags_append, dropLast_append_getLastD hPne]
  obtain ⟨hd, tl, e1, e2⟩ := naiveAux_acc s ['(']
  rw [← hP] at e2
  rw [e2]
  show partFrags (('(' :: hd) :: tl) = partFrags (naiveSplit s)
  rw [partFrags_cons_sg (sg_cons_open (by decide) hd), naiveSplit, e1]

/-- A brace group `{ s ; }` around any text leaves its fragments
unchanged. -/
theorem textFrags_braceWrap (s : Str) : textFrags (braceWrap s) = textFrags s := by
  unfold textFrags braceWrap
  rw [show naiveSplit (lbr :: ' ' :: (s ++ (' ' :: ';' :: ' ' :: [rbr]))) =
      naiveAux [' ', lbr] (s ++ (' ' :: ';' :: ' ' :: [rbr])) by
    rw [show naiveSplit (lbr :: ' ' :: (s ++ (' ' :: ';' :: ' ' :: [rbr]))) =
        naiveAux [] (lbr :: ' ' :: (s ++ (' ' :: ';' :: ' ' :: [rbr]))) from rfl]
    rw [naiveAux_other [] _ (by decide) (by decide) (by decide),
      naiveAux_other [lbr] _ (by decide) (by decide) (by decide)]]
  rw [naiveAux_append (' ' :: ';' :: ' ' :: [rbr]) (by decide) (by decide)
    s.length s (Nat.le_refl _) [' ', lbr]]
  set Q := naiveAux [' ', lbr] s with hQ
  have hQne : Q ≠ [] := naiveAux_ne_nil s [' ', lbr]
  have htail : naiveAux (Q.getLastD []).reverse (' ' :: ';' :: ' ' :: [rbr]) =
      [(Q.getLastD []) ++ [' '], [' ', rbr]] := by
    rw [naiveAux_other _ (';' :: ' ' :: [rbr]) (by decide) (by decide) (by decide),
      naiveAux_semi, naiveAux_other [] ([rbr]) (by decide) (by decide) (by decide),
      naiveAux_other [' '] [] (by decide) (by decide) (by decide), naiveAux_nil]
    simp
  rw [htail]
  have hdrop : partFrags [[' ', rbr]] = [] := by decide
  rw [show (Q.getLastD [] ++ [' ']) :: [[' ', rbr]] =
    [Q.getLastD [] ++ [' ']] ++ [[' ', rbr]] from rfl]
  rw [partFrags_append, partFrags_append, hdrop,
    partFrags_singleton_sg (sg_concat_close (by decide) _)]
  rw [List.append_nil, ← partFrags_append, dropLast_append_getLastD hQne]
  obtain ⟨hd, tl, e1, e2⟩ := naiveAux_acc s [' ', lbr]
  rw [← hQ] at e2
  rw [e2]
  show partFrags ((lbr :: ' ' :: hd) :: tl) = partFrags (naiveSplit s)
  rw [partFrags_cons_sg (sg_cons_open (by decide) (' ' :: hd)),
    partFrags_cons_sg (sg_cons_open (by decide) hd), naiveSplit, e1]

/-- Joining with any of the four separators concatenates the fragments. -/
theorem textFrags_join (a j b : Str) (hj : j ∈ joiners) :
    textFrags (joinCmd a j b) = textFrags a ++ textFrags b := by
  unfold textFrags joinCmd naiveSplit
  rw [naiveAux_append (' ' :: (j ++ ' ' :: b)) (by simp) (by simp)
    a.length a (Nat.le_refl _) []]
  set A := naiveAux [] a with hA
  have hAne : A ≠ [] := naiveAux_ne_nil a []
  have hmid : ∀ acc : Str, naiveAux acc (' ' :: (j ++ ' ' :: b)) =
      (acc.reverse ++ [' ']) :: naiveAux [' '] b := by
    intro acc
    rw [naiveAux_other acc (j ++ ' ' :: b) (by decide) (by decide) (by decide)]
    fin_cases hj
    · show naiveAux (' ' :: acc) ('&' :: '&' :: (' ' :: b)) = _
      rw [naiveAux_andand,
        naiveAux_other [] b (by decide) (by decide) (by decide)]
      simp
    · show naiveAux (' ' :: acc) ('|' :: '|' :: (' ' :: b)) = _
      rw [naiveAux_pipepipe,
        naiveAux_other [] b (by decide) (by decide) (by decide)]
      simp
    · show naiveAux (' ' :: acc) (';' :: (' ' :: b)) = _
      rw [naiveAux_semi,
        naiveAux_other [] b (by decide) (by decide) (by decide)]
      simp
    · show naiveAux (' ' :: acc) ('|' :: (' ' :: b)) = _
      rw [naiveAux_pipe_one _ (by simp),
        naiveAux_other [] b (by decide) (by decide) (by decide)]
      simp
  rw [hmid]
  obtain ⟨hd, tl, e1, e2⟩ := naiveAux_acc b [' ']
  rw [e2]
  simp only [List.reverse_reverse]
  have hlist : A.dropLast ++ ((A.getLastD [] ++ [' ']) :: (([' '].reverse ++ hd) :: tl)) =
      (A.dropLast ++ [A.getLastD [] ++ [' ']]) ++ (([' '].reverse ++ hd) :: tl) := by
    simp
  rw [hlist, partFrags_append, partFrags_append,
    partFrags_singleton_sg (sg_concat_close (by decide) (A.getLastD [])),
    ← partFrags_append, dropLast_append_getLastD hAne,
    partFrags_cons_sg (p := [' '].reverse ++ hd) (q := hd) (by
      show strip_shell_grouping (' ' :: hd) = _
      exact sg_cons_open (by decide) hd),
    e1]

theorem split_dollarWrap {s : Str} (h : cleanCmd s) :
    split_shell_commands (dollarWrap s) = split_shell_commands s := by
  have hfind : dollarFind (dollarWrap s) = some ([], s, []) :=
    dollarFind_wrap h.1 h.2.1 ([] : Str)
  have hbtk : backtickFind (dollarWrap s) = none := by
    apply backtickFind_none
    intro hm
    simp only [dollarWrap, List.mem_cons, List.mem_append] at hm
    rcases hm with h1 | h1 | h1 | h1
    · exact absurd h1 (by decide)
    · exact absurd h1 (by decide)
    · exact h.2.2 h1
    · simp at h1
      exact absurd h1 (by decide)
  have hsub : subsOnce (dollarWrap s) = [' '] := by
    unfold subsOnce
    rw [dollarSubAll_eq_some hfind,
      dollarSubAll_eq_none (show dollarFind ([] : Str) = none from rfl)]
    show backtickSubAll [' '] = [' ']
    rw [backtickSubAll_eq_none (show backtickFind ([' '] : Str) = none by decide)]
  have hext : extract_subshells (dollarWrap s) = [s] := by
    rw [extract_subshells_step (by simp [hfind]), hsub]
    rw [dollarFindAll_eq_some hfind,
      dollarFindAll_eq_none (show dollarFind ([] : Str) = none from rfl),
      backtickFindAll_eq_none hbtk,
      extract_subshells_nil (show dollarFind ([' '] : Str) = none by decide)
        (show backtickFind ([' '] : Str) = none by decide)]
    simp
  have hflat : flattenSubs (dollarWrap s) = [' '] := by
    rw [flattenSubs_step (by simp [hfind]), hsub,
      flattenSubs_self (show dollarFind ([' '] : Str) = none by decide)
        (show backtickFind ([' '] : Str) = none by decide)]
  rw [split_shell_commands_eq, hext, hflat, split_shell_commands_clean h]
  have hsp : textFrags [' '] = [] := by decide
  simp [hsp]

theorem split_backtickWrap {s : Str} (h : cleanCmd s) :
    split_shell_commands (backtickWrap s) = split_shell_commands s := by
  have hfind : backtickFind (backtickWrap s) = some ([], s, []) :=
    backtickFind_wrap h.2.2 ([] : Str)
  have hdollar : dollarFind (backtickWrap s) = none := by
    apply dollarFind_none
    intro hm
    simp only [backtickWrap, List.mem_cons, List.mem_append] at hm
    rcases hm with h1 | h1 | h1
    · exact absurd h1 (by decide)
    · exact h.1 h1
    · simp at h1
      exact absurd h1 (by decide)
  have hsub : subsOnce (backtickWrap s) = [' '] := by
    unfold subsOnce
    rw [dollarSubAll_eq_none hdollar, backtickSubAll_eq_some hfind,
      backtickSubAll_eq_none (show backtickFind ([] : Str) = none from rfl)]
    rfl
  have hext : extract_subshells (backtickWrap s) = [s] := by
    rw [extract_subshells_step (by simp [hfind]), hsub]
    rw [backtickFindAll_eq_some hfind,
      backtickFindAll_eq_none (show backtickFind ([] : Str) = none from rfl),
      dollarFindAll_eq_none hdollar,
      extract_subshells_nil (show dollarFind ([' '] : Str) = none by decide)
        (show backtickFind ([' '] : Str) = none by decide)]
    simp
  have hflat : flattenSubs (backtickWrap s) = [' '] := by
    rw [flattenSubs_step (by simp [hfind]), hsub,
      flattenSubs_self (show dollarFind ([' '] : Str) = none by decide)
        (show backtickFind ([' '] : Str) = none by decide)]
  rw [split_shell_commands_eq, hext, hflat, split_shell_commands_clean h]
  have hsp : textFrags [' '] = [] := by decide
  simp [hsp]

theorem split_parenWrap {s : Str} (h : cleanCmd s) :
    split_shell_commands (parenWrap s) = split_shell_commands s := by
  have hd : dollarFind (parenWrap s) = none := by
    rw [parenWrap, dollarFind_cons_other _ (by decide), dollarFind_append_rparen h.1]
    rfl
  have hb : backtickFind (parenWrap s) = none := by
    apply backtickFind_none
    intro hm
    simp only [parenWrap, List.mem_cons, List.mem_append] at hm
    rcases hm with h1 | h1 | h1
    · exact absurd h1 (by decide)
    · exact h.2.2 h1
    · simp at h1
      exact absurd h1 (by decide)
  rw [split_shell_commands_eq, extract_subshells_nil hd hb, flattenSubs_self hd hb]
  simp
  rw [textFrags_parenWrap]
  exact (split_shell_commands_clean h).symm

theorem split_braceWrap {s : Str} (h : cleanCmd s) :
    split_shell_commands (braceWrap s) = split_shell_commands s := by
  have hd : dollarFind (braceWrap s) = none := by
    apply dollarFind_none
    intro hm
    simp only [braceWrap, List.mem_cons, List.mem_append] at hm
    rcases hm with h1 | h1 | h1 | h1
    · exact absurd h1 (by decide)
    · exact absurd h1 (by decide)
    · exact h.1 h1
    · simp at h1
      rcases h1 with h1 | h1 | h1 | h1 <;> exact absurd h1 (by decide)
  have hb : backtickFind (braceWrap s) = none := by
    apply backtickFind_none
    intro hm
    simp only [braceWrap, List.mem_cons, List.mem_append] at hm
    rcases hm with h1 | h1 | h1 | h1
    · exact absurd h1 (by decide)
    · exact absurd h1 (by decide)
    · exact h.2.2 h1
    · simp at h1
      rcases h1 with h1 | h1 | h1 | h1 <;> exact absurd h1 (by decide)
  rw [split_shell_commands_eq, extract_subshells_nil hd hb, flattenSubs_self hd hb]
  simp
  rw [textFrags_braceWrap]
  exact (split_shell_commands_clean h).symm

theorem cleanCmd_join {a j b : Str} (ha : cleanCmd a) (hb : cleanCmd b)
    (hj : j ∈ joiners) : cleanCmd (joinCmd a j b) := by
  have hj' : '(' ∉ j ∧ ')' ∉ j ∧ btk ∉ j := by
    fin_cases hj <;> exact ⟨by decide, by decide, by decide⟩
  have hmem : ∀ c : Char, c ∈ joinCmd a j b → c ∈ a ∨ c ∈ j ∨ c ∈ b ∨ c = ' ' := by
    intro c hm
    simp only [joinCmd, List.mem_append, List.mem_cons] at hm
    tauto
  refine ⟨?_, ?_, ?_⟩
  · intro hm
    rcases hmem '(' hm with h1 | h1 | h1 | h1
    · exact ha.1 h1
    · exact hj'.1 h1
    · exact hb.1 h1
    · exact absurd h1 (by decide)
  · intro hm
    rcases hmem ')' hm with h1 | h1 | h1 | h1
    · exact ha.2.1 h1
    · exact hj'.2.1 h1
    · exact hb.2.1 h1
    · exact absurd h1 (by decide)
  · intro hm
    rcases hmem btk hm with h1 | h1 | h1 | h1
    · exact ha.2.2 h1
    · exact hj'.2.2 h1
    · exact hb.2.2 h1
    · exact absurd h1 (by decide)

theorem split_join {a j b : Str} (ha : cleanCmd a) (hb : cleanCmd b)
    (hj : j ∈ joiners) :
    split_shell_commands (joinCmd a j b) =
      split_shell_commands a ++ split_shell_commands b := by
  rw [split_shell_commands_clean (cleanCmd_join ha hb hj), textFrags_join a j b hj,
    split_shell_commands_clean ha, split_shell_commands_clean hb]

/-! ## Verdict plumbing -/

theorem check_command_frags (br : Option Str) (cmd : Str) :
    check_command br cmd = firstBlocked br (split_shell_commands cmd) := by
  unfold check_command
  by_cases hc : cmd = []
  · subst hc
    rw [if_pos rfl, show split_shell_commands [] = [] by decide]
    rfl
  · rw [if_neg hc]

theorem firstBlocked_cons (br : Option Str) (p : Str) (ps : List Str) :
    firstBlocked br (p :: ps) =
      if (check_single_command br p).1 then check_single_command br p
      else firstBlocked br ps := rfl

theorem firstBlocked_append_left {br : Option Str} {l1 l2 : List Str}
    (h : (firstBlocked br l1).1 = true) :
    (firstBlocked br (l1 ++ l2)).1 = true := by
  induction l1 with
  | nil => cases h
  | cons p ps ih =>
    rw [firstBlocked_cons] at h
    rw [List.cons_append, firstBlocked_cons]
    by_cases hp : (check_single_command br p).1 = true
    · rw [if_pos hp]
      exact hp
    · rw [if_neg hp] at h
      rw [if_neg hp]
      exact ih h

theorem firstBlocked_append_right {br : Option Str} {l1 l2 : List Str}
    (h : (firstBlocked br l2).1 = true) :
    (firstBlocked br (l1 ++ l2)).1 = true := by
  induction l1 with
  | nil => exact h
  | cons p ps ih =>
    rw [List.cons_append, firstBlocked_cons]
    by_cases hp : (check_single_command br p).1 = true
    · rw [if_pos hp]
      exact hp
    · rw [if_neg hp]
      exact ih

/-! ## Rule-level helper lemmas -/

theorem startsPlus_iff (t : Str) :
    check_force_push_protection.startsPlus t = true ↔ t.head? = some '+' := by
  cases t with
  | nil => simp [check_force_push_protection.startsPlus]
  | cons c ts =>
    by_cases hc : c = '+'
    · subst hc
      simp [check_force_push_protection.startsPlus]
    · simp [check_force_push_protection.startsPlus, hc]

theorem startsDash_iff (t : Str) : startsDash t = true ↔ t.head? = some '-' := by
  cases t with
  | nil => simp [startsDash]
  | cons c ts =>
    by_cases hc : c = '-'
    · subst hc
      simp [startsDash]
    · simp [startsDash, hc]

theorem mem_valueOpts_head {t : Str} (h : t ∈ GIT_GLOBAL_OPTS_WITH_VALUE) :
    t.head? = some '-' := by
  fin_cases h <;> rfl

theorem mem_flags_head {t : Str} (h : t ∈ GIT_GLOBAL_FLAGS) :
    t.head? = some '-' := by
  fin_cases h <;> rfl

theorem valueOpt_eq_head {t o : Str} (ho : o ∈ GIT_GLOBAL_OPTS_WITH_VALUE)
    (h : (o ++ ['=']).isPrefixOf t = true) : t.head? = some '-' := by
  fin_cases ho <;>
    (cases t with
     | nil => simp [List.isPrefixOf] at h
     | cons c ts =>
       simp only [List.cons_append, List.isPrefixOf, Bool.and_eq_true, beq_iff_eq] at h
       rw [← h.1]
       rfl)

theorem check_single_eq_generic {branch : Option Str} {cmd : Str}
    (h0 : cmd ≠ [])
    (hp : check_push_protection branch cmd = (false, []))
    (hr : check_rebase_protection cmd = (false, []))
    (hf : check_force_push_protection cmd = (false, []))
    (hc : check_clean_protection cmd = (false, [])) :
    check_single_command branch cmd = genericChecks cmd := by
  simp [check_single_command, h0, hp, hr, hf, hc]

theorem check_push_protection_falls_through {branch : Option Str} {cmd : Str}
    (hargs : push_args cmd ≠ [])
    (hall : (push_args cmd).find? (fun a => decide (a ∈ PUSH_ALL_FLAGS)) = none)
    (hloop : check_push_targets_loop (extract_push_targets (push_args cmd)) = none)
    (hne : extract_push_targets (push_args cmd) ≠ []) :
    check_push_protection branch cmd = (false, []) := by
  unfold check_push_protection
  rw [if_neg hargs, hall]
  show (match check_push_targets_loop (extract_push_targets (push_args cmd)) with
    | some v => v
    | none =>
      if is_protected_branch branch then
        if extract_push_targets (push_args cmd) = [] then
          (true, barePushReason (branch.getD []))
        else (false, [])
      else (false, [])) = (false, [])
  rw [hloop]
  by_cases hp : is_protected_branch branch = true
  · rw [if_pos hp, if_neg hne]
  · simp only [Bool.not_eq_true] at hp
    rw [hp]
    rfl

theorem gitKwMatch_dash {k : Char} {ks : Str} (hk : k ≠ '-') (u : Str) :
    gitKwMatch (k :: ks) (("git ").data ++ '-' :: u) = false := by
  have hdrop : List.dropWhile isPyWs ('-' :: u) = '-' :: u := by
    rw [List.dropWhile_cons, if_neg (by decide)]
  have hbeq : (k == '-') = false := by simp [hk]
  have hpre : List.isPrefixOf (k :: ks) ('-' :: u) = false := by
    simp [List.isPrefixOf, hk]
  show gitKwMatch (k :: ks) ('g' :: 'i' :: 't' :: ' ' :: '-' :: u) = false
  simp only [gitKwMatch, hdrop, hpre]
  simp

theorem pushC_count_le (br : Option Str) (cmd : Str) :
    (check_push_protectionC br cmd).2 ≤ 1 := by
  simp only [check_push_protectionC]
  repeat' split
  all_goals simp

theorem singleC_count_le (br : Option Str) (cmd : Str) :
    (check_single_commandC br cmd).2 ≤ 1 := by
  simp only [check_single_commandC]
  repeat' split
  all_goals (first | simpa using pushC_count_le br cmd | simp)

theorem firstBlockedC_cons (br : Option Str) (p : Str) (ps : List Str) :
    firstBlockedC br (p :: ps) =
      if (check_single_commandC br p).1.1 then check_single_commandC br p
      else ((firstBlockedC br ps).1,
        (check_single_commandC br p).2 + (firstBlockedC br ps).2) := rfl

theorem firstBlockedC_count_le (br : Option Str) :
    ∀ l : List Str, (firstBlockedC br l).2 ≤ l.length := by
  intro l
  induction l with
  | nil => simp [firstBlockedC]
  | cons p ps ih =>
    rw [firstBlockedC_cons]
    by_cases hp : (check_single_commandC br p).1.1 = true
    · rw [if_pos hp]
      have := singleC_count_le br p
      simp
      omega
    · rw [if_neg hp]
      have := singleC_count_le br p
      simp
      omega

/-! ## The claims -/

/-- C1 (counterexample): a push carrying `--force-with-lease` together with
a `+`-prefixed push target is blocked by the force-push rule, so the
safe-force flags do not override every force indicator. -/
theorem claim_C1_counterexample :
    (push_args (("git push --force-with-lease origin +feature").data)).any isSafeForce = true ∧
    (check_force_push_protection
      (("git push --force-with-lease origin +feature").data)).1 = true := by
  exact ⟨by decide, by decide⟩

/-- C1 (amended): when the push arguments contain `--force-with-lease`
(with or without a value) or `--force-if-includes` and no push target
begins with `+`, the force-push rule returns allow, regardless of any
`-f`/`--force` flags or short-flag bundles containing `f`. -/
theorem claim_C1_amended (cmd : Str)
    (h1 : (push_args cmd).any isSafeForce = true)
    (h2 : ∀ t ∈ extract_push_targets (push_args cmd), t.head? ≠ some '+') :
    check_force_push_protection cmd = (false, []) := by
  have hargs : push_args cmd ≠ [] := by
    intro e
    rw [e] at h1
    simp at h1
  have hplus : (extract_push_targets (push_args cmd)).any
      (fun t => check_force_push_protection.startsPlus t) = false := by
    rw [List.any_eq_false]
    intro t ht
    rw [startsPlus_iff]
    exact h2 t ht
  simp only [check_force_push_protection]
  rw [if_neg hargs, if_neg (by simp [hplus]), if_pos h1]

/-- C1 (witness): `git push -f --force-with-lease origin feature` carries a
safe-force flag, has no `+`-target, and is allowed by the force-push rule. -/
theorem claim_C1_witness :
    (push_args (("git push -f --force-with-lease origin feature").data)).any isSafeForce = true ∧
    check_force_push_protection
      (("git push -f --force-with-lease origin feature").data) = (false, []) :=
  ⟨by decide, claim_C1_amended (("git push -f --force-with-lease origin feature").data)
    (by decide) (by decide)⟩

/-- C2 (counterexample): wrapping a blocked command in `$( … )` can yield
an allowed command when the command contains a parenthesis; two mixed
nesting levels (`$( ( … ) )`) lose a plain blocked command; and a backtick
wrap loses a blocked command containing a backtick. -/
theorem claim_C2_counterexample :
    ((check_command none (("git rebase (main").data)).1 = true ∧
      (check_command none (("$(git rebase (main)").data)).1 = false) ∧
    ((check_command none (("git rebase main").data)).1 = true ∧
      (check_command none (("$((git rebase main))").data)).1 = false) ∧
    ((check_command none
        ((("git push origin ").data ++ [btk] ++ ("x main").data))).1 = true ∧
      (check_command none
        (backtickWrap (("git push origin ").data ++ [btk] ++ ("x main").data))).1 = false) := by
  exact ⟨⟨by decide, by decide⟩, ⟨by decide, by decide⟩, by decide, by decide⟩

/-- C2 (amended): for every raw command free of parentheses and backticks
on which `check_command` returns blocked, wrapping it in one level of
`$( … )`, backticks, bare parentheses `( … )`, or a brace group
`{ … ; }` still yields blocked. -/
theorem claim_C2_amended (branch : Option Str) (s : Str) (hc : cleanCmd s)
    (hb : (check_command branch s).1 = true) :
    (check_command branch (dollarWrap s)).1 = true ∧
    (check_command branch (backtickWrap s)).1 = true ∧
    (check_command branch (parenWrap s)).1 = true ∧
    (check_command branch (braceWrap s)).1 = true := by
  have hw : ∀ w : Str, split_shell_commands w = split_shell_commands s →
      (check_command branch w).1 = true := by
    intro w he
    rw [check_command_frags] at hb ⊢
    rw [he]
    exact hb
  exact ⟨hw _ (split_dollarWrap hc), hw _ (split_backtickWrap hc),
    hw _ (split_parenWrap hc), hw _ (split_braceWrap hc)⟩

/-- C2 (witness): the blocked, parenthesis- and backtick-free command
`git rebase main` stays blocked under each single wrapper. -/
theorem claim_C2_witness :
    cleanCmd (("git rebase main").data) ∧
    (check_command none (("git rebase main").data)).1 = true ∧
    ((check_command none (dollarWrap (("git rebase main").data))).1 = true ∧
     (check_command none (backtickWrap (("git rebase main").data))).1 = true ∧
     (check_command none (parenWrap (("git rebase main").data))).1 = true ∧
     (check_command none (braceWrap (("git rebase main").data))).1 = true) :=
  ⟨by decide, by decide,
    claim_C2_amended none (("git rebase main").data) (by decide) (by decide)⟩

/-- C3 (counterexample): a blocked command containing an unclosed `$(`
joined with `;` to a harmless command becomes allowed, because the
substitution scan pairs the `$(` with a parenthesis from the second
command and the push target `main` disappears from every fragment. -/
theorem claim_C3_counterexample :
    (check_command none (("git push origin $(x main").data)).1 = true ∧
    (check_command none (("y) z").data)).1 = false ∧
    (check_command none
      (joinCmd (("git push origin $(x main").data) [';'] (("y) z").data))).1 = false := by
  exact ⟨by decide, by decide, by decide⟩

/-- C3 (amended): for command strings free of parentheses and backticks,
joining with `&&`, `||`, `;` or `|` is monotone: if either side alone is
blocked, the joined compound is blocked. -/
theorem claim_C3_amended (branch : Option Str) (a j b : Str) (hj : j ∈ joiners)
    (ha : cleanCmd a) (hb : cleanCmd b)
    (h : (check_command branch a).1 = true ∨ (check_command branch b).1 = true) :
    (check_command branch (joinCmd a j b)).1 = true := by
  rw [check_command_frags, split_join ha hb hj]
  rcases h with h | h
  · rw [check_command_frags] at h
    exact firstBlocked_append_left h
  · rw [check_command_frags] at h
    exact firstBlocked_append_right h

/-- C3 (witness): `git rebase main && echo hi` is blocked because its left
half is. -/
theorem claim_C3_witness :
    ('&' :: ['&']) ∈ joiners ∧ cleanCmd (("git rebase main").data) ∧
    cleanCmd (("echo hi").data) ∧
    (check_command none (("git rebase main").data)).1 = true ∧
    (check_command none
      (joinCmd (("git rebase main").data) ('&' :: ['&']) (("echo hi").data))).1 = true :=
  ⟨by decide, by decide, by decide, by decide,
    claim_C3_amended none (("git rebase main").data) ('&' :: ['&']) (("echo hi").data)
      (by decide) (by decide) (by decide) (Or.inl (by decide))⟩

/-- C4: `check_command` is a total function returning exactly one verdict
for every input; a `shlex` failure (`ValueError`) falls back to the plain
whitespace split instead of propagating; and decomposition always produces
a result. -/
theorem claim_C4 :
    (∀ (branch : Option Str) (cmd : Str) (v1 v2 : Bool × Str),
        check_command branch cmd = v1 → check_command branch cmd = v2 → v1 = v2) ∧
    (∀ cmd : Str, shlexSplit cmd = none → shell_split cmd = pySplit cmd) ∧
    (∀ cmd : Str, ∃ ps : List Str, split_shell_commands cmd = ps) := by
  refine ⟨fun _ _ _ _ h1 h2 => h1.symm.trans h2, fun cmd h => ?_, fun cmd => ⟨_, rfl⟩⟩
  unfold shell_split
  rw [h]

/-- C4 (witness): on the unbalanced-quote input `git push "main`, `shlex`
fails and the classifier falls back to the whitespace split. -/
theorem claim_C4_witness :
    shlexSplit (("git push \"main").data) = none ∧
    shell_split (("git push \"main").data) = pySplit (("git push \"main").data) :=
  ⟨by decide, claim_C4.2.1 (("git push \"main").data) (by decide)⟩

/-- C5 (code behavior at the failing input): a bare `git push` with no
arguments is allowed even when the current branch is `main`, because
`_push_args` returns the empty list both for non-push commands and for a
bare push, and `check_push_protection` returns early on empty arguments
without consulting the branch; an options-only push (`git push -u`) does
consult the branch and blocks. -/
theorem claim_C5_code_behavior :
    check_push_protection (some (("main").data)) (("git push").data) = (false, []) ∧
    check_command (some (("main").data)) (("git push").data) = (false, []) ∧
    check_push_protection (some (("main").data)) (("git push -u").data) =
      (true, barePushReason (("main").data)) := by
  exact ⟨by decide, by decide, by decide⟩

/-- C6 (counterexample): an unrecognized leading option does not abandon
push analysis — `git --frobnicate push origin main` parses to push
arguments `origin main` and is blocked by the push rule even though no
generic catalog pattern matches. -/
theorem claim_C6_counterexample :
    push_args (("git --frobnicate push origin main").data) =
      [("origin").data, ("main").data] ∧
    (check_command none (("git --frobnicate push origin main").data)).1 = true ∧
    genericChecks (("git --frobnicate push origin main").data) = (false, []) := by
  exact ⟨by decide, by decide, by decide⟩

/-- C6 (amended): the `_push_args` scan skips any unrecognized
dash-prefixed token and keeps scanning; it abandons (returns no push
arguments) only at `--`, at a non-dash token other than `push`, or at a
value-taking option missing its value. -/
theorem claim_C6_amended :
    (∀ (t : Str) (rest : List Str), t.head? = some '-' → t ≠ ("--").data →
      t ∉ GIT_GLOBAL_OPTS_WITH_VALUE →
      (∀ o ∈ GIT_GLOBAL_OPTS_WITH_VALUE, (o ++ ['=']).isPrefixOf t = false) →
      t ∉ GIT_GLOBAL_FLAGS →
      push_args_loop (t :: rest) = push_args_loop rest) ∧
    (∀ (t : Str) (rest : List Str), t.head? ≠ some '-' → t ≠ ("push").data →
      push_args_loop (t :: rest) = []) ∧
    (∀ t : Str, t ∈ GIT_GLOBAL_OPTS_WITH_VALUE → push_args_loop [t] = []) := by
  refine ⟨?_, ?_, ?_⟩
  · intro t rest hdash hdd hvo hpre hfl
    have hpush : t ≠ ("push").data := by
      intro e
      rw [e] at hdash
      exact absurd hdash (by decide)
    have hany : ¬(GIT_GLOBAL_OPTS_WITH_VALUE.any
        (fun o => (o ++ ['=']).isPrefixOf t) = true) := by
      intro hany
      obtain ⟨o, ho, hp⟩ := List.any_eq_true.mp hany
      rw [hpre o ho] at hp
      cases hp
    unfold push_args_loop
    rw [if_neg hdd, if_neg hpush, if_neg hvo, if_neg hany, if_neg hfl,
      if_pos ((startsDash_iff t).mpr hdash)]
    rw [push_args_loop.eq_def]
  · intro t rest hdash hpush
    have hdd : t ≠ ("--").data := by
      intro e
      rw [e] at hdash
      exact absurd rfl hdash
    have hvo : t ∉ GIT_GLOBAL_OPTS_WITH_VALUE := fun hm => hdash (mem_valueOpts_head hm)
    have hany : ¬(GIT_GLOBAL_OPTS_WITH_VALUE.any
        (fun o => (o ++ ['=']).isPrefixOf t) = true) := by
      intro hany
      obtain ⟨o, ho, hp⟩ := List.any_eq_true.mp hany
      exact hdash (valueOpt_eq_head ho hp)
    have hfl : t ∉ GIT_GLOBAL_FLAGS := fun hm => hdash (mem_flags_head hm)
    have hsd : ¬(startsDash t = true) := fun hs => hdash ((startsDash_iff t).mp hs)
    unfold push_args_loop
    rw [if_neg hdd, if_neg hpush, if_neg hvo, if_neg hany, if_neg hfl, if_neg hsd]
  · intro t ht
    have hdd : t ≠ ("--").data := by
      intro e
      subst e
      revert ht
      decide
    have hpush : t ≠ ("push").data := by
      intro e
      subst e
      revert ht
      decide
    unfold push_args_loop
    rw [if_neg hdd, if_neg hpush, if_pos ht]

/-- C6 (witness): the unrecognized option `--frobnicate` is skipped, not
abandoned. -/
theorem claim_C6_witness :
    push_args_loop (("--frobnicate").data ::
        [("push").data, ("origin").data, ("main").data]) =
      push_args_loop [("push").data, ("origin").data, ("main").data] :=
  claim_C6_amended.1 (("--frobnicate").data)
    [("push").data, ("origin").data, ("main").data]
    (by decide) (by decide) (by decide) (by decide) (by decide)

/-- C7 (counterexample): a fragment enclosed in two layers of grouping
syntax is stripped of both layers, not one — the decomposer output for
`((git status))` is `git status`, not `(git status)`. -/
theorem claim_C7_counterexample :
    split_shell_commands (("((git status))").data) = [("git status").data] := by
  decide

/-- C7 (amended): `_strip_shell_grouping` strips every layer: prefixing a
`(` or `{`, or suffixing a `)`, `}` or `;`, never changes the stripped
fragment. -/
theorem claim_C7_amended (s : Str) :
    strip_shell_grouping ('(' :: s) = strip_shell_grouping s ∧
    strip_shell_grouping (lbr :: s) = strip_shell_grouping s ∧
    strip_shell_grouping (s ++ [')']) = strip_shell_grouping s ∧
    strip_shell_grouping (s ++ [rbr]) = strip_shell_grouping s ∧
    strip_shell_grouping (s ++ [';']) = strip_shell_grouping s :=
  ⟨sg_cons_open (by decide) s, sg_cons_open (by decide) s,
   sg_concat_close (by decide) s, sg_concat_close (by decide) s,
   sg_concat_close (by decide) s⟩

/-- C8: for a push target containing `:`, only the destination — the text
after the last colon, with a `refs/heads/` prefix stripped — is compared
with the protected set, and `git push origin HEAD:refs/for/main` is
allowed for every branch-lookup result. -/
theorem claim_C8 :
    (∀ (t : Str) (rest : List Str), ':' ∈ lstripPlus t →
      check_push_targets_loop (t :: rest) =
        (if normalize_branch_ref (afterLastColon (lstripPlus t)) ∈ PROTECTED_BRANCHES
         then some (true,
           refspecReason (normalize_branch_ref (afterLastColon (lstripPlus t))))
         else check_push_targets_loop rest)) ∧
    (∀ branch : Option Str,
      check_command branch (("git push origin HEAD:refs/for/main").data) = (false, [])) := by
  constructor
  · intro t rest h
    have e1 : check_push_targets_loop (t :: rest) =
        (if ':' ∈ lstripPlus t then
          (if normalize_branch_ref (afterLastColon (lstripPlus t)) ∈ PROTECTED_BRANCHES
           then some (true,
             refspecReason (normalize_branch_ref (afterLastColon (lstripPlus t))))
           else check_push_targets_loop rest)
         else
          (if normalize_branch_ref (lstripPlus t) ∈ PROTECTED_BRANCHES
           then some (true, directPushReason (normalize_branch_ref (lstripPlus t)))
           else check_push_targets_loop rest)) := rfl
    rw [e1, if_pos h]
  · intro branch
    rw [check_command_frags,
      show split_shell_commands (("git push origin HEAD:refs/for/main").data) =
        [("git push origin HEAD:refs/for/main").data] by decide,
      firstBlocked_cons]
    have hp : check_push_protection branch
        (("git push origin HEAD:refs/for/main").data) = (false, []) :=
      check_push_protection_falls_through (by decide) (by decide) (by decide) (by decide)
    have hs : check_single_command branch
        (("git push origin HEAD:refs/for/main").data) = (false, []) := by
      rw [check_single_eq_generic (by decide) hp (by decide) (by decide) (by decide)]
      decide
    rw [hs]
    simp [firstBlocked]

/-- C8 (witness): the refspec `HEAD:refs/for/main` contains a colon, its
destination is not protected, and the command is allowed with no branch. -/
theorem claim_C8_witness :
    ':' ∈ lstripPlus (("HEAD:refs/for/main").data) ∧
    check_push_targets_loop [("HEAD:refs/for/main").data] =
      (if normalize_branch_ref (afterLastColon (lstripPlus (("HEAD:refs/for/main").data)))
          ∈ PROTECTED_BRANCHES
       then some (true, refspecReason
         (normalize_branch_ref (afterLastColon (lstripPlus (("HEAD:refs/for/main").data)))))
       else check_push_targets_loop []) ∧
    check_command none (("git push origin HEAD:refs/for/main").data) = (false, []) :=
  ⟨by decide, claim_C8.1 (("HEAD:refs/for/main").data) [] (by decide), claim_C8.2 none⟩

/-- C9 (counterexample): one evaluation of `check_command` on the compound
`git push -u origin f && git push -u origin f` invokes the branch lookup
twice, once per push fragment. -/
theorem claim_C9_counterexample :
    (check_commandC none (("git push -u origin f && git push -u origin f").data)).2 = 2 := by
  decide

/-- C9 (amended): the branch lookup is invoked at most once per analyzed
sub-command, and a whole evaluation invokes it at most once per decomposed
fragment. -/
theorem claim_C9_amended :
    (∀ (branch : Option Str) (frag : Str), (check_single_commandC branch frag).2 ≤ 1) ∧
    (∀ (branch : Option Str) (cmd : Str),
      (check_commandC branch cmd).2 ≤ (split_shell_commands cmd).length) := by
  refine ⟨fun br frag => singleC_count_le br frag, fun br cmd => ?_⟩
  unfold check_commandC
  by_cases h : cmd = []
  · rw [if_pos h]
    simp
  · rw [if_neg h]
    exact firstBlockedC_count_le br _

/-- C10 (counterexample): `git --bare push origin main` places a git
global option before the subcommand and matches no generic catalog
pattern, yet it is blocked (by the push rule), so such commands are not
"allowed unless a generic catalog pattern matches". -/
theorem claim_C10_counterexample :
    shell_split (("git --bare push origin main").data) =
      [("git").data, ("--bare").data, ("push").data, ("origin").data, ("main").data] ∧
    genericChecks (("git --bare push origin main").data) = (false, []) ∧
    (check_command none (("git --bare push origin main").data)).1 = true := by
  exact ⟨by decide, by decide, by decide⟩

/-- C10 (amended): with a global option between `git` and the subcommand,
neither the rebase rule nor the clean rule blocks (their matching is
anchored at the literal leading tokens), and when push analysis also
abandons, the verdict is exactly that of the generic catalog checks. -/
theorem claim_C10_amended (branch : Option Str) (cmd u t : Str) (ts : List Str)
    (hshape : cmd = ("git ").data ++ '-' :: u)
    (htok : shell_split cmd = ("git").data :: t :: ts)
    (hdash : t.head? = some '-') :
    check_rebase_protection cmd = (false, []) ∧
    check_clean_protection cmd = (false, []) ∧
    (push_args cmd = [] → check_single_command branch cmd = genericChecks cmd) := by
  have h1 : gitKwMatch (("rebase").data) cmd = false := by
    rw [hshape, show ("rebase").data = 'r' :: ("ebase").data from rfl]
    exact gitKwMatch_dash (by decide) u
  have h2 : gitKwMatch (("filter-branch").data) cmd = false := by
    rw [hshape, show ("filter-branch").data = 'f' :: ("ilter-branch").data from rfl]
    exact gitKwMatch_dash (by decide) u
  have hr : check_rebase_protection cmd = (false, []) := by
    unfold check_rebase_protection
    rw [if_neg (by rw [h1]; decide), if_neg (by rw [h2]; decide)]
  have ht : t ≠ ("clean").data := by
    intro e
    rw [e] at hdash
    exact absurd hdash (by decide)
  have hc : check_clean_protection cmd = (false, []) := by
    simp [check_clean_protection, htok, ht]
  refine ⟨hr, hc, ?_⟩
  intro hpa
  have h0 : cmd ≠ [] := by
    rw [hshape]
    simp
  have hp : check_push_protection branch cmd = (false, []) := by
    simp [check_push_protection, hpa]
  have hf : check_force_push_protection cmd = (false, []) := by
    simp [check_force_push_protection, hpa]
  exact check_single_eq_generic h0 hp hr hf hc

/-- C10 (witness): `git -C somedir rebase main` is blocked by neither the
rebase rule nor the clean rule, and its verdict is the generic checks'. -/
theorem claim_C10_witness :
    check_rebase_protection (("git -C somedir rebase main").data) = (false, []) ∧
    check_clean_protection (("git -C somedir rebase main").data) = (false, []) ∧
    check_single_command none (("git -C somedir rebase main").data) =
      genericChecks (("git -C somedir rebase main").data) := by
  have h := claim_C10_amended none (("git -C somedir rebase main").data)
    (("C somedir rebase main").data) (("-C").data)
    [("somedir").data, ("rebase").data, ("main").data]
    (by decide) (by decide) (by decide)
  exact ⟨h.1, h.2.1, h.2.2 (by decide)⟩

end Guard
